import Mathlib

/-!
Shallow embedding of the speedtools repository (Python) in Lean 4, together
with theorems settling the frozen claims about its specification.

Conventions used throughout:
* Python `bytes` / `bytearray` values are embedded as `List Nat` (byte values).
* Python `int` is embedded as `Int` (or `Nat` where the source value is
  provably non-negative); Python's arithmetic right shift `x >> n` on ints is
  floor division by `2 ^ n`, embedded as `Int.fdiv`.
* Python `float` values appearing in the embedded fragments are always
  produced by exact operations (copies, additions, subtractions,
  multiplications of file data), so they are embedded as `ℚ`.
* Fallible code (struct unpack errors, IndexError, KeyError) is embedded with
  `Option`: `none` models an uncaught Python exception.
* Python `sorted` / `list.sort` are stable sorts; they are embedded as
  `List.insertionSort` with the non-strict key order, which is stable.
-/

namespace Speedtools

/-! ## Generic helpers shared by several embedded modules -/

/-- Stable key-based comparison used to embed Python's `sorted(key=...)`. -/
def keyLE {α β : Type} [LinearOrder β] (key : α → β) : α → α → Prop :=
  fun a b => key a ≤ key b

instance {α β : Type} [LinearOrder β] (key : α → β) : DecidableRel (keyLE key) :=
  fun a b => inferInstanceAs (Decidable (key a ≤ key b))

instance {α β : Type} [LinearOrder β] (key : α → β) : IsTotal α (keyLE key) :=
  ⟨fun a b => le_total (key a) (key b)⟩

instance {α β : Type} [LinearOrder β] (key : α → β) : IsTrans α (keyLE key) :=
  ⟨fun _ _ _ h1 h2 => le_trans h1 h2⟩

/-- Stable sort by a key function, embedding Python's `sorted(xs, key=...)`. -/
def sortByKey {α β : Type} [LinearOrder β] (key : α → β) (l : List α) : List α :=
  List.insertionSort (keyLE key) l

/-- Consecutive grouping by a key, embedding `itertools.groupby(xs, key=...)`:
the list is cut into maximal runs of elements with equal key. -/
def groupRuns {α β : Type} [DecidableEq β] (key : α → β) : List α → List (β × List α)
  | [] => []
  | a :: l =>
    match groupRuns key l with
    | [] => [(key a, [a])]
    | (k, g) :: rest =>
      if key a = k then (k, a :: g) :: rest else (key a, [a]) :: (k, g) :: rest

/-- First-occurrence deduplication by the first pair component, embedding
`more_itertools.unique_everseen(xs, key=lambda x: nth(x, 0))` with its
`seen` accumulator. -/
def uniqueEverseenFst {α : Type} : List (Nat × α) → List Nat → List (Nat × α)
  | [], _ => []
  | p :: l, seen =>
    if p.1 ∈ seen then uniqueEverseenFst l seen
    else p :: uniqueEverseenFst l (p.1 :: seen)

/-- Sequence of `Option` results, embedding a lazy Python pipeline whose
consumption raises the first exception produced by any element. -/
def optionMap {α β : Type} (f : α → Option β) : List α → Option (List β)
  | [] => some []
  | a :: l =>
    match f a with
    | none => none
    | some b =>
      match optionMap f l with
      | none => none
      | some bs => some (b :: bs)

/-! ## Refpack (src/speedtools/refpack.py)

`Refpack.decode` / `Refpack._decode_cmd` and the four opcode decoders are
embedded byte-for-byte.  The generator `_decode_cmd` and its consumer loop in
`decode` are fused into `decodeLoop`, with the opcode dispatch of
`_decode_cmd` inlined so that the recursion is on the remaining input. -/

structure Opcode where
  proclen : Nat
  reflen : Nat
  refdist : Nat
  deriving DecidableEq, Repr

/-- Embeds `Opcode.is_stop`. -/
def Opcode.is_stop (c : Opcode) : Bool :=
  decide (c.proclen < 4) && (c.reflen == 0) && (c.refdist == 0)

/-- Embeds `Refpack._decode_2b_cmd` applied to bytes `a, b`. -/
def decode2bCmd (a b : Nat) : Opcode :=
  { proclen := a &&& 0x03
    reflen := ((a &&& 0x1C) >>> 2) + 3
    refdist := ((a &&& 0x60) <<< 3) + b + 1 }

/-- Embeds `Refpack._decode_3b_cmd` applied to bytes `a, b, c`. -/
def decode3bCmd (a b c : Nat) : Opcode :=
  { proclen := (b &&& 0xC0) >>> 6
    reflen := (a &&& 0x3F) + 4
    refdist := ((b &&& 0x3F) <<< 8) + c + 1 }

/-- Embeds `Refpack._decode_4b_cmd` applied to bytes `a, b, c, d`. -/
def decode4bCmd (a b c d : Nat) : Opcode :=
  { proclen := a &&& 0x03
    reflen := ((a &&& 0x0C) <<< 6) + d + 5
    refdist := ((a &&& 0x10) <<< 12) + (b <<< 8) + c + 1 }

/-- Embeds `Refpack._decode_1b_cmd` applied to byte `a`. -/
def decode1bCmd (a : Nat) : Opcode :=
  if a < 0xFC then { proclen := ((a &&& 0x1F) + 1) <<< 2, reflen := 0, refdist := 0 }
  else { proclen := a &&& 0x03, reflen := 0, refdist := 0 }

/-- Embeds the Python expression `decompressed_data[-refdist]`: Python's
negative indexing, where index `-0` is index `0` and an index beyond the
front raises `IndexError` (modelled as `none`). -/
def pyIndexBack (out : List Nat) (refdist : Nat) : Option Nat :=
  if refdist = 0 then out.get? 0
  else if refdist ≤ out.length then out.get? (out.length - refdist)
  else none

/-- Embeds the consumer loop `for _ in range(cmd.reflen):
decompressed_data.append(decompressed_data[-cmd.refdist])`, appending one
byte at a time so that overlapping back-references replay already-emitted
bytes incrementally. -/
def extendBackref (out : List Nat) (refdist : Nat) : Nat → Option (List Nat)
  | 0 => some out
  | n + 1 =>
    match pyIndexBack out refdist with
    | none => none
    | some b => extendBackref (out ++ [b]) refdist n

/-- Outcome of one iteration of the fused decode loop: a crash (failed
`unpack` or `IndexError`), the stop opcode (loop breaks with the final
output), or a continuation with the extended output and remaining input. -/
inductive StepResult where
  | crash
  | halt (result : List Nat)
  | cont (out2 : List Nat) (rem : List Nat)
  deriving DecidableEq, Repr

/-- Embeds, for one decoded opcode `cmd` with remaining input `r`, the body
of the consumer loop in `Refpack.decode`: take `proclen` literal bytes from
the input (Python slicing truncates silently when the input is short), append
the back-reference bytes one at a time, and break exactly when
`cmd.is_stop`. -/
def finishStep (out : List Nat) (cmd : Opcode) (r : List Nat) : StepResult :=
  match extendBackref (out ++ r.take cmd.proclen) cmd.refdist cmd.reflen with
  | none => StepResult.crash
  | some out2 =>
    if cmd.is_stop then StepResult.halt out2
    else StepResult.cont out2 (r.drop cmd.proclen)

/-- Embeds one iteration of `Refpack._decode_cmd` fused with its consumer:
the opcode class is selected by the top bits of the first byte `a` exactly as
in the source (an `unpack` on too few bytes is a crash; the `raise
ValueError("Bad opcode")` branch is kept as the final crash although it is
unreachable). -/
def decodeStep (out : List Nat) (a : Nat) (rest : List Nat) : StepResult :=
  if a &&& 0x80 = 0 then
    match rest with
    | [] => StepResult.crash
    | b :: r => finishStep out (decode2bCmd a b) r
  else if a &&& 0xC0 = 0x80 then
    match rest with
    | b :: c :: r => finishStep out (decode3bCmd a b c) r
    | _ => StepResult.crash
  else if a &&& 0xE0 = 0xC0 then
    match rest with
    | b :: c :: d :: r => finishStep out (decode4bCmd a b c d) r
    | _ => StepResult.crash
  else if a &&& 0xE0 = 0xE0 then
    finishStep out (decode1bCmd a) rest
  else StepResult.crash

/-- Fuel-indexed form of the decode loop.  Every iteration consumes at least
one input byte, so with fuel at least the input length the fuel never runs
out before the input does; the fuel-exhausted case coincides with the
empty-input case (a failed `unpack`, i.e. a crash). -/
def decodeLoopF (fuel : Nat) (out : List Nat) (input : List Nat) : Option (List Nat) :=
  match fuel, input with
  | _, [] => none
  | 0, _ :: _ => none
  | fuel + 1, a :: rest =>
    match decodeStep out a rest with
    | StepResult.crash => none
    | StepResult.halt result => some result
    | StepResult.cont out2 rem => decodeLoopF fuel out2 rem

/-- Embeds the fused loop of `Refpack.decode` over `Refpack._decode_cmd`:
repeatedly decode one opcode and process it, breaking after the stop opcode;
`none` models an uncaught exception (truncated input or bad
back-reference). -/
def decodeLoop (out : List Nat) (input : List Nat) : Option (List Nat) :=
  decodeLoopF input.length out input

/-- Error raised by `Refpack.decode` (`raise ValueError("Bad decompressed
length ...")`). -/
inductive RefpackError where
  | lengthMismatch
  deriving DecidableEq, Repr

/-- Embeds `Refpack.decode` for a `Refpack` constructed with
`expanded_length`: run the loop, then compare the produced length against the
pre-declared expanded length.  `none` models a crash of the loop itself
(truncated input or bad back-reference), which the source does not turn into
the length error. -/
def refpackDecode (expandedLength : Nat) (compressed : List Nat) :
    Option (Except RefpackError (List Nat)) :=
  match decodeLoop [] compressed with
  | none => none
  | some out =>
    if out.length = expandedLength then some (Except.ok out)
    else some (Except.error RefpackError.lengthMismatch)

/-! ## ADPCM decoder (src/speedtools/decoders.py) -/

/-- Embeds `adpcm_table`. -/
def adpcmTable : List Int :=
  [0, 240, 460, 392, 0, 0, -208, -220, 0, 1, 3, 4, 7, 8, 10, 11, 0, -1, -3, -4]

/-- Embeds `clip_int16`. -/
def clipInt16 (a : Int) : Int := max (-32768) (min 32767 a)

/-- Embeds Python's two's-complement `x & m` for an arbitrary int `x` and a
non-negative mask `m < 2 ^ 32`: the low 32 bits of `x` (its Euclidean residue
modulo `2 ^ 32`) masked with `m`. -/
def pyAnd (x : Int) (m : Nat) : Nat :=
  (x % ((2 ^ 32 : Nat) : Int)).toNat &&& m

/-- Embeds `sign_extend(value, bits)` (Python's `&` on possibly negative ints
is two's-complement bitwise and, embedded by `pyAnd`). -/
def signExtend (value : Int) (bits : Nat) : Int :=
  let signBit : Nat := 2 ^ (bits - 1)
  ((pyAnd value (signBit - 1) : Nat) : Int) - ((pyAnd value signBit : Nat) : Int)

/-- Embeds Python's arithmetic right shift `x >> n` on `int` (floor division
by `2 ^ n`). -/
def pyShr (x : Int) (n : Nat) : Int := Int.fdiv x ((2 ^ n : Nat) : Int)

/-- Embeds `unpack("<b", ...)` of one byte: reinterpret an unsigned byte as a
signed one. -/
def toSignedByte (b : Nat) : Int := if b < 128 then (b : Int) else (b : Int) - 256

/-- Rolling predictor state of `adpcm_to_s16le` (the four local variables
`current/previous_left/right_sample`). -/
structure AdpcmState where
  currentLeft : Int
  previousLeft : Int
  currentRight : Int
  previousRight : Int
  deriving DecidableEq, Repr

/-- Embeds the inner sample loop of `adpcm_to_s16le` (`for _ in
range(iters)`), consuming one data byte per iteration and emitting the
decoded samples in order.  The shift amounts are always positive on the
reachable inputs, so `1 << shift` is embedded as `2 ^ shift.toNat`. -/
def adpcmSamples (numChannels : Nat) (coeff1l coeff2l coeff1r coeff2r : Int)
    (shiftLeft shiftRight : Int) :
    AdpcmState → List Nat → Nat → Option (AdpcmState × List Nat × List Int)
  | st, data, 0 => some (st, data, [])
  | _, [], _ + 1 => none
  | st, byteU :: data, n + 1 =>
    let byte := toSignedByte byteU
    let nl0 := signExtend (pyShr byte 4) 4 * ((2 ^ shiftLeft.toNat : Nat) : Int)
    let nl := pyShr (nl0 + st.currentLeft * coeff1l + st.previousLeft * coeff2l + 0x80) 8
    let prevL := st.currentLeft
    let curL := clipInt16 nl
    if numChannels = 2 then
      let nr0 := signExtend byte 4 * ((2 ^ shiftRight.toNat : Nat) : Int)
      let nr := pyShr (nr0 + st.currentRight * coeff1r + st.previousRight * coeff2r + 0x80) 8
      let prevR := st.currentRight
      let curR := clipInt16 nr
      match adpcmSamples numChannels coeff1l coeff2l coeff1r coeff2r shiftLeft shiftRight
          ⟨curL, prevL, curR, prevR⟩ data n with
      | none => none
      | some (st2, rest, outs) => some (st2, rest, curL :: curR :: outs)
    else
      let nl0' := signExtend byte 4 * ((2 ^ shiftLeft.toNat : Nat) : Int)
      let nl' := pyShr (nl0' + curL * coeff1l + prevL * coeff2l + 0x80) 8
      let prevL' := curL
      let curL' := clipInt16 nl'
      match adpcmSamples numChannels coeff1l coeff2l coeff1r coeff2r shiftLeft shiftRight
          ⟨curL', prevL', st.currentRight, st.previousRight⟩ data n with
      | none => none
      | some (st2, rest, outs) => some (st2, rest, curL :: curL' :: outs)

/-- Embeds the outer frame loop of `adpcm_to_s16le` (`for _ in
range(length)`).  The first control byte is read unsigned (`"<B"`); for
stereo the second control byte is read SIGNED (`"<b"`), exactly as in the
source, so its high nibble is taken of the sign-extended value. -/
def adpcmFrames (numChannels : Nat) : AdpcmState → List Nat → Nat → Option (List Int)
  | _, _, 0 => some []
  | _, [], _ + 1 => none
  | st, byte :: data, n + 1 =>
    let coeff1l := adpcmTable.getD (byte >>> 4) 0
    let coeff2l := adpcmTable.getD ((byte >>> 4) + 4) 0
    let coeff1r := adpcmTable.getD (byte &&& 0x0F) 0
    let coeff2r := adpcmTable.getD ((byte &&& 0x0F) + 4) 0
    if numChannels = 2 then
      match data with
      | [] => none
      | byte2U :: data2 =>
        let byte2 : Int := toSignedByte byte2U
        let shiftLeft := (20 : Int) - pyShr byte2 4
        let shiftRight := (20 : Int) - ((pyAnd byte2 0x0F : Nat) : Int)
        match adpcmSamples numChannels coeff1l coeff2l coeff1r coeff2r shiftLeft shiftRight
            st data2 28 with
        | none => none
        | some (st2, rest, outs) =>
          match adpcmFrames numChannels st2 rest n with
          | none => none
          | some outs2 => some (outs ++ outs2)
    else
      let shiftLeft := (20 : Int) - ((byte &&& 0x0F : Nat) : Int)
      let shiftRight := (0 : Int)
      match adpcmSamples numChannels coeff1l coeff2l coeff1r coeff2r shiftLeft shiftRight
          st data 14 with
      | none => none
      | some (st2, rest, outs) =>
        match adpcmFrames numChannels st2 rest n with
        | none => none
        | some outs2 => some (outs ++ outs2)

/-- Embeds `adpcm_to_s16le(stream, num_channels)`, producing the decoded
16-bit samples in emission order (the `pack("<h", ...)` byte serialization is
left out: each emitted value is already clipped to the i16 range). -/
def adpcmToS16le (stream : List Nat) (numChannels : Nat) : Option (List Int) :=
  let dv := if numChannels = 2 then 30 else 15
  adpcmFrames numChannels ⟨0, 0, 0, 0⟩ stream (stream.length / dv)

/-- Follows the spec's words for the stereo shift derivation, differing from
the source only there: "a second control byte supplies the two right-shift
amounts as 20 minus its high nibble (left) and 20 minus its low nibble
(right)" — i.e. the second control byte is treated as unsigned. -/
def adpcmFramesSpec (numChannels : Nat) : AdpcmState → List Nat → Nat → Option (List Int)
  | _, _, 0 => some []
  | _, [], _ + 1 => none
  | st, byte :: data, n + 1 =>
    let coeff1l := adpcmTable.getD (byte >>> 4) 0
    let coeff2l := adpcmTable.getD ((byte >>> 4) + 4) 0
    let coeff1r := adpcmTable.getD (byte &&& 0x0F) 0
    let coeff2r := adpcmTable.getD ((byte &&& 0x0F) + 4) 0
    if numChannels = 2 then
      match data with
      | [] => none
      | byte2 :: data2 =>
        let shiftLeft := (20 : Int) - ((byte2 >>> 4 : Nat) : Int)
        let shiftRight := (20 : Int) - ((byte2 &&& 0x0F : Nat) : Int)
        match adpcmSamples numChannels coeff1l coeff2l coeff1r coeff2r shiftLeft shiftRight
            st data2 28 with
        | none => none
        | some (st2, rest, outs) =>
          match adpcmFramesSpec numChannels st2 rest n with
          | none => none
          | some outs2 => some (outs ++ outs2)
    else
      let shiftLeft := (20 : Int) - ((byte &&& 0x0F : Nat) : Int)
      let shiftRight := (0 : Int)
      match adpcmSamples numChannels coeff1l coeff2l coeff1r coeff2r shiftLeft shiftRight
          st data 14 with
      | none => none
      | some (st2, rest, outs) =>
        match adpcmFramesSpec numChannels st2 rest n with
        | none => none
        | some outs2 => some (outs ++ outs2)

/-- Spec-side counterpart of `adpcmToS16le` built on `adpcmFramesSpec`. -/
def adpcmToS16leSpec (stream : List Nat) (numChannels : Nat) : Option (List Int) :=
  let dv := if numChannels = 2 then 30 else 15
  adpcmFramesSpec numChannels ⟨0, 0, 0, 0⟩ stream (stream.length / dv)

/-! ## FRD UV derivation (src/speedtools/frd_data.py, `_texture_flags_to_uv`)

The Python function mutates a list of `[u, v]` int pairs in place; each
in-place mutation block is embedded as a pure step on the 4-element list
(identity on other shapes, which never occur). -/

/-- Canonical unit-quad UV set, `uv = [[1, 1], [0, 1], [0, 0], [1, 0]]`. -/
def baseUv : List (Int × Int) := [(1, 1), (0, 1), (0, 0), (1, 0)]

/-- Embeds the `polygon.mirror_y` block: swap `uv[1][1]` with `uv[2][1]` and
`uv[0][1]` with `uv[3][1]`. -/
def mirrorYStep : List (Int × Int) → List (Int × Int)
  | [(u0, v0), (u1, v1), (u2, v2), (u3, v3)] => [(u0, v3), (u1, v2), (u2, v1), (u3, v0)]
  | l => l

/-- Embeds the `polygon.mirror_x` block: swap `uv[0][0]` with `uv[1][0]` and
`uv[2][0]` with `uv[3][0]`. -/
def mirrorXStep : List (Int × Int) → List (Int × Int)
  | [(u0, v0), (u1, v1), (u2, v2), (u3, v3)] => [(u1, v0), (u0, v1), (u3, v2), (u2, v3)]
  | l => l

/-- Embeds the `polygon.invert` block: `uv = map(lambda x: [1 - x[0], 1 - x[1]], uv)`. -/
def invertStep (l : List (Int × Int)) : List (Int × Int) :=
  l.map (fun x => (1 - x.1, 1 - x.2))

/-- Embeds the `polygon.rotate` block: `uv[0][1] = 1 - uv[0][1]`,
`uv[1][0] = 1 - uv[1][0]`, `uv[2][1] = 1 - uv[2][1]`, `uv[3][0] = 1 - uv[3][0]`. -/
def rotateStep : List (Int × Int) → List (Int × Int)
  | [(u0, v0), (u1, v1), (u2, v2), (u3, v3)] =>
    [(u0, 1 - v0), (1 - u1, v1), (u2, 1 - v2), (1 - u3, v3)]
  | l => l

/-- Embeds `FrdData._texture_flags_to_uv` as a function of the polygon's four
texture flags. -/
def textureFlagsToUv (mirror_x mirror_y invert rotate : Bool) : List (Int × Int) :=
  let uv := baseUv
  let uv := if mirror_y then mirrorYStep uv else uv
  let uv := if mirror_x then mirrorXStep uv else uv
  let uv := if invert then invertStep uv else uv
  if rotate then rotateStep uv else uv

/-! ## Domain value types (src/speedtools/types.py, fields used by the
embedded functions) -/

/-- Embeds `types.Vector3d` (a NamedTuple with in-memory field order
`x, z, y`; fields are accessed by name throughout). -/
structure Vector3d where
  x : ℚ
  z : ℚ
  y : ℚ
  deriving DecidableEq, Repr

/-- Embeds `Vector3d.subtract`. -/
def Vector3d.subtract (a b : Vector3d) : Vector3d :=
  { x := a.x - b.x, y := a.y - b.y, z := a.z - b.z }

/-- Radicand of `Vector3d.magnitude` (`sqrt(x**2 + y**2 + z**2)`).  The
square root is omitted: it is strictly monotone on non-negative arguments, so
every comparison-based use (sorting by distance) is unchanged.  Squares are
written as products so the definition evaluates by kernel reduction. -/
def Vector3d.magnitudeSq (v : Vector3d) : ℚ := v.x * v.x + v.y * v.y + v.z * v.z

/-- Radicand of `Vector3d.horizontal_plane_length` (`sqrt(x**2 + z**2)`),
kept for the spec-side rendering of the planar distance. -/
def Vector3d.horizontalPlaneSq (v : Vector3d) : ℚ := v.x * v.x + v.z * v.z

/-- Embeds `types.Color`. -/
structure Color where
  red : Int
  green : Int
  blue : Int
  alpha : Int
  deriving DecidableEq, Repr

/-- Embeds `types.Vertex`. -/
structure Vertex where
  location : Vector3d
  normal : Option Vector3d := none
  color : Option Color := none
  deriving DecidableEq, Repr

/-- Default used to embed Python sequence indexing where the index is known
in-bounds; an out-of-bounds access in the source raises `IndexError`. -/
def defaultVertex : Vertex := { location := { x := 0, z := 0, y := 0 } }

/-- Embeds `types.Edge`. -/
inductive Edge where
  | FRONT
  | LEFT
  | BACK
  | RIGHT
  deriving DecidableEq, Repr

/-- Embeds `types.CollisionPolygon`. -/
structure CollisionPolygon where
  face : List Nat
  edges : List Edge := []
  has_finite_height : Bool := false
  has_wall_collision : Bool := false
  deriving DecidableEq, Repr

/-- Embeds `types.CollisionMesh` (the `collision_effect` enum value is kept
as its integer code). -/
structure CollisionMesh where
  vertices : List Vertex
  polygons : List CollisionPolygon
  collision_effect : Nat
  deriving DecidableEq, Repr

/-! ## utils.remove_unused_vertices (src/speedtools/utils.py)

The Python function is duck-typed over any mesh with `vertices` and
`polygons` whose polygons carry a `face`; it is embedded generically over the
polygon type with the pair `(face, set_face)` standing for attribute access
and `dataclasses.replace(polygon, face=...)`.  `list(set(...))` enumerates a
Python set in an unspecified order; the embedding fixes the canonical
`List.dedup` enumeration — every property proved below is independent of the
enumeration order. -/

/-- Embeds `utils.remove_unused_vertices`, returning the new vertex and
polygon lists. -/
def removeUnusedVertices {P : Type} (face : P → List Nat) (set_face : P → List Nat → P)
    (vertices : List Vertex) (polygons : List P) : List Vertex × List P :=
  let usedVerticeIdx := polygons.flatMap face
  let usedVertices := (usedVerticeIdx.map (fun i => vertices.getD i defaultVertex)).dedup
  let mapping := fun v => List.indexOf v usedVertices
  let makePolygon := fun p =>
    set_face p ((face p).map (fun i => mapping (vertices.getD i defaultVertex)))
  (usedVertices, polygons.map makePolygon)

/-- Face accessor for `CollisionPolygon`, the polygon type at which
`remove_unused_vertices` is used by the embedded FRD pipeline. -/
def cpFace (p : CollisionPolygon) : List Nat := p.face

/-- Embeds `dataclasses.replace(polygon, face=face)` for `CollisionPolygon`. -/
def cpSetFace (p : CollisionPolygon) (f : List Nat) : CollisionPolygon :=
  { p with face := f }

/-! ## FRD collision meshes (src/speedtools/frd_data.py)

Embedding of `_validate_polygon`, `_make_collision_polygon`,
`_make_collision_mesh` and `_make_collision_meshes`.  Only the fields these
functions consult are carried by the parser structures. -/

/-- Embeds the fields of `FrdParser.Polygon` consulted by
`_make_collision_polygon` (only `face`). -/
structure FrdPolygonData where
  face : List Nat
  deriving DecidableEq, Repr

/-- Embeds the fields of a chunk of `FrdParser.SegmentData` consulted here. -/
structure FrdChunk where
  polygons : List FrdPolygonData
  deriving DecidableEq, Repr

/-- Embeds the fields of `FrdParser.DriveablePolygon` consulted by the
collision-mesh pipeline (`road_effect` is kept as its integer code). -/
structure DriveablePolygon where
  polygon : Nat
  road_effect : Nat
  front_edge : Bool := false
  left_edge : Bool := false
  back_edge : Bool := false
  right_edge : Bool := false
  has_finite_height : Bool := false
  has_wall_collision : Bool := false
  deriving DecidableEq, Repr

/-- Embeds the fields of `FrdParser.SegmentData` consulted by the
collision-mesh pipeline. -/
structure SegmentData where
  chunks : List FrdChunk
  vertices : List Vector3d
  driveable_polygons : List DriveablePolygon
  deriving DecidableEq, Repr

/-- Embeds `FrdData._validate_polygon(face, all_edges)` as used by
`_make_collision_polygon`: zip the face with `(FRONT, LEFT, BACK, RIGHT)` and
keep the first occurrence of every face index. -/
def validatePolygonEdges (face : List Nat) : List (Nat × Edge) :=
  uniqueEverseenFst (face.zip [Edge.FRONT, Edge.LEFT, Edge.BACK, Edge.RIGHT]) []

/-- Embeds `FrdData._make_collision_polygon`.  The source indexes
`segment.chunks[4]` and `...polygons[polygon.polygon]`; both are embedded
with `getD` (the source would raise `IndexError` out of bounds). -/
def makeCollisionPolygon (segment : SegmentData) (polygon : DriveablePolygon) :
    CollisionPolygon :=
  let polyFace := ((segment.chunks.getD 4 ⟨[]⟩).polygons.getD polygon.polygon ⟨[]⟩).face
  let validated := validatePolygonEdges polyFace
  let face := validated.map (fun x => x.1)
  let allowedEdges := validated.map (fun x => x.2)
  let edges0 := (if polygon.front_edge then [Edge.FRONT] else [])
    ++ (if polygon.left_edge then [Edge.LEFT] else [])
    ++ (if polygon.back_edge then [Edge.BACK] else [])
    ++ (if polygon.right_edge then [Edge.RIGHT] else [])
  let edges := edges0.filter (fun x => x ∈ allowedEdges)
  { face := face
    edges := edges
    has_finite_height := polygon.has_finite_height
    has_wall_collision := polygon.has_wall_collision }

/-- Embeds `FrdData._make_collision_mesh`. -/
def makeCollisionMesh (segment : SegmentData) (roadEffect : Nat)
    (driveablePolygons : List DriveablePolygon) : CollisionMesh :=
  let polygons := driveablePolygons.map (makeCollisionPolygon segment)
  let vertices := segment.vertices.map (fun loc => { location := loc : Vertex })
  let vp := removeUnusedVertices cpFace cpSetFace vertices polygons
  { vertices := vp.1, polygons := vp.2, collision_effect := roadEffect }

/-- Embeds `FrdData._make_collision_meshes`: sort the driveable polygons by
road-effect value (Python's `sorted` is stable), group consecutively by
road-effect (`itertools.groupby`), and build one collision mesh per group. -/
def makeCollisionMeshes (segment : SegmentData) : List CollisionMesh :=
  let driveablePolygons :=
    sortByKey (fun d : DriveablePolygon => d.road_effect) segment.driveable_polygons
  let groups := groupRuns (fun d : DriveablePolygon => d.road_effect) driveablePolygons
  groups.map (fun g => makeCollisionMesh segment g.1 g.2)

/-- Follows the claim's words for the grouping of driveable polygons: "the
flat sequence of driveable polygons is split into contiguous chunks by
checking that each successive polygon index equals the previous polygon
index plus one".  Kept only to compare with the source's grouping. -/
def splitContiguousSpec : List DriveablePolygon → List (List DriveablePolygon)
  | [] => []
  | a :: l =>
    match splitContiguousSpec l with
    | [] => [[a]]
    | [] :: gs => [a] :: [] :: gs
    | (b :: g) :: gs =>
      if a.polygon + 1 = b.polygon then (a :: b :: g) :: gs else [a] :: (b :: g) :: gs

/-! ## Track variant-file resolution (src/speedtools/track_data.py, `tr_open`)

`TrackData.tr_open` builds a variant precedence list and returns the first
file that resolves; `utils.get_path_case_insensitive`, which it calls, is
imported by the source but absent from the repository sources, so it is
modelled from the spec below. -/

/-- Lower-casing of a string, written out over the character list so that it
evaluates by kernel reduction (`String.toLower` itself recurses on byte
positions). -/
def strLower (s : String) : String := String.mk (s.data.map Char.toLower)

/-- Modelled from the spec: `utils.get_path_case_insensitive` is called by
`TrackData.tr_open` but its definition is missing from the sources.  Per the
spec (§4.3, §6) a variant-suffixed filename is resolved against the track
directory's contents and an absent file raises `FileNotFoundError`.  The
directory is modelled as its list of filenames and the lookup as
case-insensitive name matching, `none` standing for `FileNotFoundError`. -/
def getPathCaseInsensitive (directory : List String) (name : String) : Option String :=
  directory.find? (fun f => strLower f == strLower name)

/-- Embeds the construction of `try_options` in `TrackData.tr_open`. -/
def tryOptions (night weather : Bool) : List String :=
  if weather && night then ["NW", "N", ""]
  else if night then ["N", ""]
  else if weather then ["W", ""]
  else [""]

/-- Renders the claim's words, for comparison with `tryOptions`: the claimed
precedence list "night+weather -> night-only -> weather-only -> base" would
have a night+weather request fall back through the weather-only suffix as
well before reaching the base file. -/
def tryOptionsSpec (night weather : Bool) : List String :=
  if weather && night then ["NW", "N", "W", ""]
  else if night then ["N", ""]
  else if weather then ["W", ""]
  else [""]

/-- Embeds the `for variant in try_options` loop of `TrackData.tr_open`:
`with suppress(FileNotFoundError)` makes a failed resolution fall through to
the next variant; the loop's `return constructor(path)` is modelled as
returning the resolved filename itself. -/
def trOpenLoop (directory : List String) (pre post : String) :
    List String → Except String String
  | [] => Except.error ("File " ++ pre ++ post ++ " or its variants not found")
  | v :: rest =>
    match getPathCaseInsensitive directory (pre ++ v ++ post) with
    | some p => Except.ok p
    | none => trOpenLoop directory pre post rest

/-- Embeds `TrackData.tr_open` (the `mirrored` parameter is accepted and,
as in the source, never consulted). -/
def trOpen (directory : List String) (pre post : String)
    (mirrored night weather : Bool) : Except String String :=
  trOpenLoop directory pre post (tryOptions night weather)

/-! ## Wall vertex raising (src/speedtools/track_data.py, `_raise_vertex`) -/

/-- Embeds the `sort_key` closure of `TrackData._raise_vertex`: the FULL 3-D
distance `vertex.location.subtract(location).magnitude()` (represented by
its square, a strictly monotone image). -/
def raiseSortKey (vertex : Vertex) (sample : Vector3d × ℚ) : ℚ :=
  (vertex.location.subtract sample.1).magnitudeSq

/-- Embeds Python's `min(xs, key=get_height)`: the first element attaining
the minimal height, `none` on an empty list (`ValueError` in Python). -/
def minByHeight : List (Vector3d × ℚ) → Option (Vector3d × ℚ)
  | [] => none
  | a :: l =>
    match minByHeight l with
    | none => some a
    | some m => if a.2 ≤ m.2 then some a else some m

/-- Embeds `TrackData._raise_vertex`: sort the height samples by distance to
the vertex (full 3-D magnitude), take the 3 closest, pick the minimum height
among them, and add it to the vertex's `y`. -/
def raiseVertex (heights : List (Vector3d × ℚ)) (vertex : Vertex) : Option Vertex :=
  let sortedHeights := List.insertionSort (keyLE (raiseSortKey vertex)) heights
  let closestHeights := sortedHeights.take 3
  match minByHeight closestHeights with
  | none => none
  | some target =>
    let y := vertex.location.y + target.2
    some { vertex with location := { vertex.location with y := y } }

/-- Follows the claim's words for the sample ordering: "the candidate samples
are sorted by planar (horizontal) distance to the vertex" — i.e. the sort key
is the horizontal-plane distance, not the full 3-D magnitude.  Kept only to
compare with the source's `_raise_vertex`. -/
def raiseVertexPlanarSpec (heights : List (Vector3d × ℚ)) (vertex : Vertex) :
    Option Vertex :=
  let key := fun sample : Vector3d × ℚ =>
    (vertex.location.subtract sample.1).horizontalPlaneSq
  let sortedHeights := List.insertionSort (keyLE key) heights
  let closestHeights := sortedHeights.take 3
  match minByHeight closestHeights with
  | none => none
  | some target =>
    let y := vertex.location.y + target.2
    some { vertex with location := { vertex.location with y := y } }

/-! ## Resource name deduplication (src/speedtools/utils.py,
`count_repeats_and_map` / `unique_named_resources`) -/

/-- Embeds `types.BlendMode`. -/
inductive BlendMode where
  | ALPHA
  | ADDITIVE
  deriving DecidableEq, Repr

/-- Embeds `types.Resource` (the image payload is carried as its raw bytes). -/
structure Resource where
  name : String
  image : List Nat
  mirrored : Bool := false
  nonmirrored : Bool := false
  blend_mode : Option BlendMode := none
  deriving DecidableEq, Repr

/-- Embeds `utils.count_repeats_and_map`, with the `count` dict carried as an
association list (`List.lookup` finds the most recent binding, matching dict
update): `count[k] = count.setdefault(k, -1) + 1` then `yield func(item,
count[k])`. -/
def countRepeatsAndMap {T Ty β : Type} [DecidableEq β] (func : T → Int → Ty)
    (key : T → β) : List T → List (β × Int) → List Ty
  | [], _ => []
  | item :: rest, count =>
    let k := key item
    let c := (match count.lookup k with | some c => c | none => -1) + 1
    func item c :: countRepeatsAndMap func key rest ((k, c) :: count)

/-- Embeds the `make_unique_name` closure of `utils.unique_named_resources`. -/
def makeUniqueName (resource : Resource) (repeats : Int) : Resource :=
  if repeats = 0 then resource
  else
    { name := resource.name ++ "-" ++ toString repeats
      image := resource.image
      mirrored := resource.mirrored
      nonmirrored := resource.nonmirrored
      blend_mode := resource.blend_mode }

/-- Embeds `utils.unique_named_resources`. -/
def uniqueNamedResources (l : List Resource) : List Resource :=
  countRepeatsAndMap makeUniqueName (fun x => x.name) l []

/-! ## Engine audio assembly (src/speedtools/viv_data.py, `merge_tables`) -/

/-- Embeds `types.EngineAudioType`. -/
inductive EngineAudioType where
  | COAST
  | LOAD
  deriving DecidableEq, Repr

/-- Embeds `types.SoundTable`. -/
structure SoundTable where
  volume : List Int
  pitch : List Int
  table_type : EngineAudioType
  deriving DecidableEq, Repr

/-- Embeds `types.AudioStream`. -/
structure AudioStream where
  num_channels : Nat
  sample_rate : Nat
  audio_samples : List Nat
  loop_start : Nat
  loop_length : Nat
  deriving DecidableEq, Repr

/-- Embeds the engine-audio record constructed by `VivData.merge_tables`
(the field names follow the `EngineAudio(streams=..., tables=..., is_rear=...,
patchnum=...)` construction in `viv_data.py`). -/
structure EngineAudio where
  streams : List AudioStream
  tables : List SoundTable
  is_rear : Bool
  patchnum : Nat
  deriving DecidableEq, Repr

/-- Embeds the `mkenginesound` closure of `VivData.merge_tables` applied to
one patch-number group: the dict subscript `samples[patchnum]` raises
`KeyError` (modelled as `none`) when the patch number has no stream. -/
def mkEngineSound (samples : List (Nat × List AudioStream)) (patchnum : Nat)
    (tables : List SoundTable) : Option EngineAudio :=
  match samples.lookup patchnum with
  | none => none
  | some streams =>
    some { streams := streams
           tables := tables
           is_rear := decide (patchnum > 0x40)
           patchnum := patchnum }

/-- Embeds `VivData.merge_tables`: concatenate the load and coast tables,
sort by patch number (stably), group consecutively by patch number
(`groupby_transform` with `valuefunc=lambda x: x[1]`), and build one
`EngineAudio` per group; consuming the resulting lazy pipeline raises
the first `KeyError` (modelled as `none` for the whole result). -/
def mergeTables (samples : List (Nat × List AudioStream))
    (load coast : List (Nat × SoundTable)) : Option (List EngineAudio) :=
  let tables := load ++ coast
  let sorted := sortByKey (fun x : Nat × SoundTable => x.1) tables
  let grouped := groupRuns (fun x : Nat × SoundTable => x.1) sorted
  optionMap (fun g => mkEngineSound samples g.1 (g.2.map (fun x => x.2))) grouped

/-! ## Auxiliary definitions used in statements and concrete instances -/

/-- Repeat count that `utils.count_repeats_and_map` assigns to the next item
with key `k` given the current `count` dict: `count.setdefault(k, -1) + 1`. -/
def nextRepeat {β : Type} [DecidableEq β] (count : List (β × Int)) (k : β) : Int :=
  (match count.lookup k with | some c => c | none => -1) + 1

/-- Concrete FRD segment whose two driveable polygons reference
non-contiguous chunk-4 polygons (indices 0 and 2) with the same road
effect. -/
def contiguitySegment : SegmentData :=
  { chunks := [{ polygons := [] }, { polygons := [] }, { polygons := [] }, { polygons := [] },
      { polygons := [{ face := [0, 1, 2, 3] }, { face := [0, 1, 2, 3] },
        { face := [4, 5, 6, 7] }] }]
    vertices := [{ x := 0, z := 0, y := 0 }, { x := 1, z := 0, y := 0 },
      { x := 2, z := 0, y := 0 }, { x := 3, z := 0, y := 0 }, { x := 4, z := 0, y := 0 },
      { x := 5, z := 0, y := 0 }, { x := 6, z := 0, y := 0 }, { x := 7, z := 0, y := 0 }]
    driveable_polygons := [{ polygon := 0, road_effect := 1 },
      { polygon := 2, road_effect := 1 }] }

/-- Concrete wall vertex at the origin. -/
def wallVertex : Vertex := { location := { x := 0, z := 0, y := 0 } }

/-- Concrete height samples around `wallVertex`: the fourth sample is
horizontally closer than the third but far away in full 3-D distance, and the
nearest sample's height (5) differs from the minimum (0) among the three 3-D
closest. -/
def wallHeights : List (Vector3d × ℚ) :=
  [({ x := 2, z := 0, y := 0 }, 5), ({ x := 4, z := 0, y := 0 }, 5),
   ({ x := 6, z := 0, y := 0 }, 0), ({ x := 5, z := 0, y := 20 }, -100)]

/-- Concrete sound table used in the engine-audio instances. -/
def engineLoadTable : SoundTable :=
  { volume := [1], pitch := [2], table_type := EngineAudioType.LOAD }

/-- Concrete coast sound table used in the engine-audio instances. -/
def engineCoastTable : SoundTable :=
  { volume := [3], pitch := [4], table_type := EngineAudioType.COAST }

/-- Concrete audio stream used in the engine-audio instances. -/
def engineStream : AudioStream :=
  { num_channels := 1, sample_rate := 22050, audio_samples := [0, 1], loop_start := 0,
    loop_length := 1 }

/-- Concrete resources sharing a name, used in the dedup instances. -/
def resourceA : Resource := { name := "x", image := [0] }

/-- Second concrete resource with the same name as `resourceA` but different
content. -/
def resourceB : Resource := { name := "x", image := [1], mirrored := true }

/-- Concrete vertex list with an unused third vertex, used in the
vertex-removal instances. -/
def sampleVertices : List Vertex :=
  [{ location := { x := 0, z := 0, y := 0 } }, { location := { x := 1, z := 0, y := 0 } },
   { location := { x := 2, z := 0, y := 0 } }]

/-- Concrete polygon list referencing only the first two of
`sampleVertices`. -/
def samplePolygons : List CollisionPolygon :=
  [{ face := [0, 1, 1, 0] }]

/-! ## Helper lemmas: bit masks and the Refpack loop -/

theorem land_mask_step (a m1 m2 v : Nat) (hm : m1 &&& m2 = m2) (h : a &&& m1 = v) :
    a &&& m2 = v &&& m2 := by
  calc a &&& m2 = a &&& (m1 &&& m2) := by rw [hm]
    _ = a &&& m1 &&& m2 := by rw [Nat.and_assoc]
    _ = v &&& m2 := by rw [h]

theorem land80_of_landC0 (a : Nat) (h : a &&& 0xC0 = 0x80) : a &&& 0x80 = 0x80 :=
  (land_mask_step a 0xC0 0x80 0x80 (by decide) h).trans (by decide)

theorem land80_of_landE0C0 (a : Nat) (h : a &&& 0xE0 = 0xC0) : a &&& 0x80 = 0x80 :=
  (land_mask_step a 0xE0 0x80 0xC0 (by decide) h).trans (by decide)

theorem landC0_of_landE0C0 (a : Nat) (h : a &&& 0xE0 = 0xC0) : a &&& 0xC0 = 0xC0 :=
  (land_mask_step a 0xE0 0xC0 0xC0 (by decide) h).trans (by decide)

theorem land80_of_landE0E0 (a : Nat) (h : a &&& 0xE0 = 0xE0) : a &&& 0x80 = 0x80 :=
  (land_mask_step a 0xE0 0x80 0xE0 (by decide) h).trans (by decide)

theorem landC0_of_landE0E0 (a : Nat) (h : a &&& 0xE0 = 0xE0) : a &&& 0xC0 = 0xC0 :=
  (land_mask_step a 0xE0 0xC0 0xE0 (by decide) h).trans (by decide)

theorem decodeStep_2b (out : List Nat) (a b : Nat) (r : List Nat) (h : a &&& 0x80 = 0) :
    decodeStep out a (b :: r) = finishStep out (decode2bCmd a b) r := by
  simp [decodeStep, h]

theorem decodeStep_3b (out : List Nat) (a b c : Nat) (r : List Nat) (h : a &&& 0xC0 = 0x80) :
    decodeStep out a (b :: c :: r) = finishStep out (decode3bCmd a b c) r := by
  have h1 : ¬a &&& 0x80 = 0 := by have := land80_of_landC0 a h; omega
  simp [decodeStep, h1, h]

theorem decodeStep_4b (out : List Nat) (a b c d : Nat) (r : List Nat)
    (h : a &&& 0xE0 = 0xC0) : decodeStep out a (b :: c :: d :: r) =
      finishStep out (decode4bCmd a b c d) r := by
  have h1 : ¬a &&& 0x80 = 0 := by have := land80_of_landE0C0 a h; omega
  have h2 : ¬a &&& 0xC0 = 0x80 := by have := landC0_of_landE0C0 a h; omega
  simp [decodeStep, h1, h2, h]

theorem decodeStep_1b (out : List Nat) (a : Nat) (rest : List Nat) (h : a &&& 0xE0 = 0xE0) :
    decodeStep out a rest = finishStep out (decode1bCmd a) rest := by
  have h1 : ¬a &&& 0x80 = 0 := by have := land80_of_landE0E0 a h; omega
  have h2 : ¬a &&& 0xC0 = 0x80 := by have := landC0_of_landE0E0 a h; omega
  have h3 : ¬a &&& 0xE0 = 0xC0 := by omega
  simp [decodeStep, h1, h2, h3, h]

theorem decode2bCmd_not_stop (a b : Nat) : (decode2bCmd a b).is_stop = false := by
  simp [Opcode.is_stop, decode2bCmd]

theorem decode3bCmd_not_stop (a b c : Nat) : (decode3bCmd a b c).is_stop = false := by
  simp [Opcode.is_stop, decode3bCmd]

theorem decode4bCmd_not_stop (a b c d : Nat) : (decode4bCmd a b c d).is_stop = false := by
  simp [Opcode.is_stop, decode4bCmd]

theorem decode1bCmd_stop_iff (a : Nat) : (decode1bCmd a).is_stop = true ↔ 0xFC ≤ a := by
  unfold decode1bCmd
  by_cases hlt : a < 0xFC
  · have h4 : ¬((a &&& 0x1F) + 1) <<< 2 < 4 := by
      rw [Nat.shiftLeft_eq]
      omega
    simp [hlt, Opcode.is_stop, h4]
  · have h3 : a &&& 0x03 < 4 := by
      have := Nat.and_le_right (n := a) (m := 0x03)
      omega
    simp [hlt, Opcode.is_stop, h3]
    omega

theorem opcode_stop_iff (cmd : Opcode) :
    cmd.is_stop = true ↔ cmd.proclen < 4 ∧ cmd.reflen = 0 ∧ cmd.refdist = 0 := by
  simp [Opcode.is_stop, and_assoc]

theorem finishStep_not_stop (out : List Nat) (cmd : Opcode) (r : List Nat)
    (h : cmd.is_stop = false) :
    finishStep out cmd r =
      match extendBackref (out ++ r.take cmd.proclen) cmd.refdist cmd.reflen with
      | none => StepResult.crash
      | some out2 => StepResult.cont out2 (r.drop cmd.proclen) := by
  unfold finishStep
  cases extendBackref (out ++ r.take cmd.proclen) cmd.refdist cmd.reflen with
  | none => rfl
  | some out2 => simp [h]

theorem finishStep_continue_length (out : List Nat) (cmd : Opcode) (r out2 rem : List Nat)
    (h : finishStep out cmd r = StepResult.cont out2 rem) : rem.length ≤ r.length := by
  unfold finishStep at h
  cases hx : extendBackref (out ++ r.take cmd.proclen) cmd.refdist cmd.reflen with
  | none => rw [hx] at h; simp at h
  | some o2 =>
    rw [hx] at h
    by_cases hs : cmd.is_stop = true
    · simp [hs] at h
    · rw [Bool.not_eq_true] at hs
      simp [hs] at h
      have : rem = r.drop cmd.proclen := h.2.symm
      rw [this, List.length_drop]
      omega

theorem decodeStep_continue_length (out : List Nat) (a : Nat) (rest out2 rem : List Nat)
    (h : decodeStep out a rest = StepResult.cont out2 rem) : rem.length ≤ rest.length := by
  unfold decodeStep at h
  by_cases h1 : a &&& 0x80 = 0
  · rw [if_pos h1] at h
    cases rest with
    | nil => simp at h
    | cons b r =>
      have := finishStep_continue_length out (decode2bCmd a b) r out2 rem h
      simp only [List.length_cons]
      omega
  · rw [if_neg h1] at h
    by_cases h2 : a &&& 0xC0 = 0x80
    · rw [if_pos h2] at h
      match rest with
      | [] => simp at h
      | [b] => simp at h
      | b :: c :: r =>
        have := finishStep_continue_length out (decode3bCmd a b c) r out2 rem h
        simp only [List.length_cons]
        omega
    · rw [if_neg h2] at h
      by_cases h3 : a &&& 0xE0 = 0xC0
      · rw [if_pos h3] at h
        match rest with
        | [] => simp at h
        | [b] => simp at h
        | [b, c] => simp at h
        | b :: c :: d :: r =>
          have := finishStep_continue_length out (decode4bCmd a b c d) r out2 rem h
          simp only [List.length_cons]
          omega
      · rw [if_neg h3] at h
        by_cases h4 : a &&& 0xE0 = 0xE0
        · rw [if_pos h4] at h
          exact finishStep_continue_length out (decode1bCmd a) rest out2 rem h
        · rw [if_neg h4] at h
          simp at h

theorem decodeLoopF_nil (f : Nat) (out : List Nat) : decodeLoopF f out [] = none := by
  cases f <;> rfl

theorem decodeLoopF_congr (f1 : Nat) : ∀ (f2 : Nat) (out input : List Nat),
    input.length ≤ f1 → input.length ≤ f2 →
    decodeLoopF f1 out input = decodeLoopF f2 out input := by
  induction f1 with
  | zero =>
    intro f2 out input h1 _
    have : input = [] := List.length_eq_zero.mp (by omega)
    rw [this, decodeLoopF_nil, decodeLoopF_nil]
  | succ n ih =>
    intro f2 out input h1 h2
    cases input with
    | nil => rw [decodeLoopF_nil, decodeLoopF_nil]
    | cons a rest =>
      rw [List.length_cons] at h1 h2
      match f2 with
      | 0 => omega
      | m + 1 =>
        simp only [decodeLoopF]
        cases hs : decodeStep out a rest with
        | crash => rfl
        | halt result => rfl
        | cont out2 rem =>
          have hlen := decodeStep_continue_length out a rest out2 rem hs
          exact ih m out2 rem (by omega) (by omega)

theorem decodeLoop_cons (out : List Nat) (a : Nat) (rest : List Nat) :
    decodeLoop out (a :: rest) =
      match decodeStep out a rest with
      | StepResult.crash => none
      | StepResult.halt result => some result
      | StepResult.cont out2 rem => decodeLoop out2 rem := by
  unfold decodeLoop
  simp only [List.length_cons, decodeLoopF]
  cases hs : decodeStep out a rest with
  | crash => rfl
  | halt result => rfl
  | cont out2 rem =>
    exact decodeLoopF_congr rest.length rem.length out2 rem
      (decodeStep_continue_length out a rest out2 rem hs) le_rfl

theorem extendBackref_spec (n : Nat) : ∀ (out : List Nat) (d : Nat), 1 ≤ d → d ≤ out.length →
    ∃ app : List Nat, extendBackref out d n = some (out ++ app) ∧ app.length = n ∧
      ∀ i, i < n → (out ++ app)[out.length + i - d]? = app[i]? := by
  induction n with
  | zero =>
    intro out d _ _
    exact ⟨[], by simp [extendBackref], rfl, by omega⟩
  | succ m ih =>
    intro out d hd1 hd2
    have hidx : out.length - d < out.length := by omega
    have hpy : pyIndexBack out d = out[out.length - d]? := by
      unfold pyIndexBack
      rw [if_neg (by omega), if_pos hd2]
      rw [List.get?_eq_getElem?]
    obtain ⟨b, hb⟩ : ∃ b, out[out.length - d]? = some b :=
      ⟨out[out.length - d], List.getElem?_eq_getElem hidx⟩
    obtain ⟨app', happ', hlen', hprop'⟩ :=
      ih (out ++ [b]) d hd1 (by simp; omega)
    refine ⟨b :: app', ?_, by simp [hlen'], ?_⟩
    · show extendBackref out d (m + 1) = _
      unfold extendBackref
      rw [hpy, hb]
      show extendBackref (out ++ [b]) d m = _
      rw [happ']
      simp
    · intro i hi
      match i with
      | 0 =>
        have hlt : out.length + 0 - d < out.length := by omega
        rw [List.getElem?_append, if_pos hlt]
        simpa using hb
      | j + 1 =>
        have harith : out.length + (j + 1) - d = (out ++ [b]).length + j - d := by
          simp
          omega
        have := hprop' j (by omega)
        rw [harith]
        have hassoc : out ++ b :: app' = (out ++ [b]) ++ app' := by simp
        rw [hassoc, this]
        simp

/-! ## C1 and C2: the Refpack decoder claims -/

/-- Claim C1: for every compressed byte stream, the Refpack decoder reads one
opcode selected by its top bits and computes `(proclen, reflen, refdist)` by
the documented formulas for the 2-byte, 3-byte, 4-byte and 1-byte opcode
classes; it copies `proclen` literal bytes from the input to the output, then
appends `reflen` bytes one at a time, each equal to the output byte `refdist`
positions back from the current output end; and it stops exactly when
`proclen < 4 ∧ reflen = 0 ∧ refdist = 0`, which is reachable only via a
1-byte opcode with `a ≥ 0xFC`. -/
theorem refpack_claim_C1 :
    (∀ out a b r, a &&& 0x80 = 0 →
      decodeLoop out (a :: b :: r) =
        match extendBackref (out ++ r.take (a &&& 0x03)) (((a &&& 0x60) <<< 3) + b + 1)
            (((a &&& 0x1C) >>> 2) + 3) with
        | none => none
        | some out2 => decodeLoop out2 (r.drop (a &&& 0x03)))
    ∧ (∀ out a b c r, a &&& 0xC0 = 0x80 →
      decodeLoop out (a :: b :: c :: r) =
        match extendBackref (out ++ r.take ((b &&& 0xC0) >>> 6)) (((b &&& 0x3F) <<< 8) + c + 1)
            ((a &&& 0x3F) + 4) with
        | none => none
        | some out2 => decodeLoop out2 (r.drop ((b &&& 0xC0) >>> 6)))
    ∧ (∀ out a b c d r, a &&& 0xE0 = 0xC0 →
      decodeLoop out (a :: b :: c :: d :: r) =
        match extendBackref (out ++ r.take (a &&& 0x03))
            (((a &&& 0x10) <<< 12) + (b <<< 8) + c + 1) (((a &&& 0x0C) <<< 6) + d + 5) with
        | none => none
        | some out2 => decodeLoop out2 (r.drop (a &&& 0x03)))
    ∧ (∀ out a rest, a &&& 0xE0 = 0xE0 → a < 0xFC →
      decodeLoop out (a :: rest) =
        decodeLoop (out ++ rest.take (((a &&& 0x1F) + 1) <<< 2))
          (rest.drop (((a &&& 0x1F) + 1) <<< 2)))
    ∧ (∀ out a rest, a &&& 0xE0 = 0xE0 → 0xFC ≤ a →
      decodeLoop out (a :: rest) = some (out ++ rest.take (a &&& 0x03)))
    ∧ (∀ cmd : Opcode, cmd.is_stop = true ↔
        cmd.proclen < 4 ∧ cmd.reflen = 0 ∧ cmd.refdist = 0)
    ∧ (∀ a b, (decode2bCmd a b).is_stop = false)
    ∧ (∀ a b c, (decode3bCmd a b c).is_stop = false)
    ∧ (∀ a b c d, (decode4bCmd a b c d).is_stop = false)
    ∧ (∀ a, (decode1bCmd a).is_stop = true ↔ 0xFC ≤ a)
    ∧ (∀ n out d, 1 ≤ d → d ≤ List.length out →
        ∃ app, extendBackref out d n = some (out ++ app) ∧ app.length = n ∧
          ∀ i, i < n → (out ++ app)[out.length + i - d]? = app[i]?) := by
  refine ⟨?_, ?_, ?_, ?_, ?_, opcode_stop_iff, decode2bCmd_not_stop, decode3bCmd_not_stop,
    decode4bCmd_not_stop, decode1bCmd_stop_iff, fun n out d h1 h2 => extendBackref_spec n out d h1 h2⟩
  · intro out a b r h
    rw [decodeLoop_cons, decodeStep_2b out a b r h,
      finishStep_not_stop out _ r (decode2bCmd_not_stop a b)]
    simp only [decode2bCmd]
    cases extendBackref (out ++ r.take (a &&& 0x03)) (((a &&& 0x60) <<< 3) + b + 1)
        (((a &&& 0x1C) >>> 2) + 3) with
    | none => rfl
    | some out2 => rfl
  · intro out a b c r h
    rw [decodeLoop_cons, decodeStep_3b out a b c r h,
      finishStep_not_stop out _ r (decode3bCmd_not_stop a b c)]
    simp only [decode3bCmd]
    cases extendBackref (out ++ r.take ((b &&& 0xC0) >>> 6)) (((b &&& 0x3F) <<< 8) + c + 1)
        ((a &&& 0x3F) + 4) with
    | none => rfl
    | some out2 => rfl
  · intro out a b c d r h
    rw [decodeLoop_cons, decodeStep_4b out a b c d r h,
      finishStep_not_stop out _ r (decode4bCmd_not_stop a b c d)]
    simp only [decode4bCmd]
    cases extendBackref (out ++ r.take (a &&& 0x03))
        (((a &&& 0x10) <<< 12) + (b <<< 8) + c + 1) (((a &&& 0x0C) <<< 6) + d + 5) with
    | none => rfl
    | some out2 => rfl
  · intro out a rest h hlt
    have hcmd : decode1bCmd a =
        { proclen := ((a &&& 0x1F) + 1) <<< 2, reflen := 0, refdist := 0 } := by
      simp [decode1bCmd, hlt]
    have hstop : (decode1bCmd a).is_stop = false := by
      rw [← Bool.not_eq_true, decode1bCmd_stop_iff]
      omega
    rw [decodeLoop_cons, decodeStep_1b out a rest h, finishStep_not_stop out _ rest hstop,
      hcmd]
    simp [extendBackref]
  · intro out a rest h hge
    have hcmd : decode1bCmd a = { proclen := a &&& 0x03, reflen := 0, refdist := 0 } := by
      simp [decode1bCmd, Nat.not_lt.mpr hge]
    have hstop : (decode1bCmd a).is_stop = true := (decode1bCmd_stop_iff a).mpr hge
    rw [decodeLoop_cons, decodeStep_1b out a rest h]
    unfold finishStep
    rw [hcmd] at hstop ⊢
    simp [extendBackref, hstop]

/-- Witness for C1: concrete streams exercising the 2-byte opcode step, the
1-byte literal-run step and the 1-byte stop opcode. -/
theorem refpack_claim_C1_witness :
    decodeLoop [] [0x03, 0x00, 1, 2, 3, 0xFC] = some [1, 2, 3, 3, 3, 3] ∧
    decodeLoop [] [0xE0, 9, 8, 7, 6, 0xFC] = some [9, 8, 7, 6] ∧
    decodeLoop [] [0xFE, 7, 9] = some [7, 9] := by
  obtain ⟨h2b, _, _, h1b, hstop, _⟩ := refpack_claim_C1
  refine ⟨?_, ?_, ?_⟩
  · rw [h2b [] 0x03 0x00 [1, 2, 3, 0xFC] (by decide)]
    decide
  · rw [h1b [] 0xE0 [9, 8, 7, 6, 0xFC] (by decide) (by decide)]
    decide
  · rw [hstop [] 0xFE [7, 9] (by decide) (by decide)]
    decide

/-- Claim C2: whenever the decode loop reaches the stop opcode having
produced `out`, `Refpack.decode` raises the length-mismatch error iff
`out.length` differs from the pre-declared expanded length, and returns the
decoded bytes unchanged when the lengths agree. -/
theorem refpack_claim_C2 (expandedLength : Nat) (input out : List Nat)
    (h : decodeLoop [] input = some out) :
    (refpackDecode expandedLength input = some (Except.error RefpackError.lengthMismatch)
        ↔ out.length ≠ expandedLength)
    ∧ (out.length = expandedLength →
        refpackDecode expandedLength input = some (Except.ok out)) := by
  unfold refpackDecode
  rw [h]
  constructor
  · by_cases he : out.length = expandedLength <;> simp [he]
  · intro he
    simp [he]

/-- Witness for C2: a concrete stream decoding to 4 bytes, accepted at
declared length 4 and rejected with the length-mismatch error at declared
length 5. -/
theorem refpack_claim_C2_witness :
    refpackDecode 4 [0xE0, 9, 8, 7, 6, 0xFC] = some (Except.ok [9, 8, 7, 6]) ∧
    refpackDecode 5 [0xE0, 9, 8, 7, 6, 0xFC] =
      some (Except.error RefpackError.lengthMismatch) := by
  have hloop : decodeLoop [] [0xE0, 9, 8, 7, 6, 0xFC] = some [9, 8, 7, 6] := by decide
  exact ⟨(refpack_claim_C2 4 _ _ hloop).2 rfl,
    (refpack_claim_C2 5 _ _ hloop).1.mpr (by decide)⟩

/-! ## C3: the ADPCM decoder claim (code bug in the stereo shift byte) -/

set_option maxRecDepth 200000 in
set_option maxHeartbeats 4000000 in
/-- Claim C3 (code bug): on a concrete stereo frame whose second control byte
is `0x90`, the source decoder — which reads that byte SIGNED (`unpack("<b")`)
— computes `shift_left = 20 - (-112 >> 4) = 27` and saturates the first left
sample to 32767, while the claim's formula (20 minus the unsigned high
nibble, as in the FFmpeg reference quoted in the source's own comments)
gives `shift_left = 11` and first sample 8. -/
theorem adpcm_claim_C3 :
    adpcmToS16le (0x00 :: 0x90 :: 0x10 :: List.replicate 27 0) 2 =
      some (32767 :: 0 :: List.replicate 54 0)
    ∧ adpcmToS16leSpec (0x00 :: 0x90 :: 0x10 :: List.replicate 27 0) 2 =
      some (8 :: 0 :: List.replicate 54 0)
    ∧ (20 : Int) - pyShr (toSignedByte 0x90) 4 = 27
    ∧ (20 : Int) - ((0x90 >>> 4 : Nat) : Int) = 11 := by
  refine ⟨by decide, by decide, by decide, by decide⟩

/-! ## C4: the FRD UV derivation claim -/

/-- Claim C4: the UV coordinates are the canonical unit-quad UV set
transformed by the four texture flags in the fixed order mirror_y, mirror_x,
invert, then rotate, each step performing the documented swaps/flips; in
particular, with only `mirror_x` set the result is
`[(0,1),(1,1),(1,0),(0,0)]` (an x-swap of positions 0-1 and 2-3). -/
theorem frd_claim_C4 :
    (∀ mirror_x mirror_y invert rotate : Bool,
      textureFlagsToUv mirror_x mirror_y invert rotate =
        (fun uv => if rotate then rotateStep uv else uv)
          ((fun uv => if invert then invertStep uv else uv)
            ((fun uv => if mirror_x then mirrorXStep uv else uv)
              ((fun uv => if mirror_y then mirrorYStep uv else uv) baseUv))))
    ∧ textureFlagsToUv true false false false = [(0, 1), (1, 1), (1, 0), (0, 0)] := by
  exact ⟨fun _ _ _ _ => rfl, by decide⟩

/-! ## C5: the FRD collision-mesh grouping claim (corrected) -/

/-- Counterexample to claim C5: on `contiguitySegment`, whose two driveable
polygons have the same road effect but non-contiguous polygon indices 0 and
2, the source produces a single collision mesh containing both polygons,
whereas the claim's contiguity splitting
(`prev.polygon_index + 1 == next.polygon_index`) yields two separate chunks,
so no output mesh could contain both. -/
theorem frd_claim_C5_counterexample :
    (makeCollisionMeshes contiguitySegment).map (fun m => m.polygons.length) = [2]
    ∧ (makeCollisionMeshes contiguitySegment).map (fun m => m.collision_effect) = [1]
    ∧ (splitContiguousSpec contiguitySegment.driveable_polygons).map List.length
        = [1, 1] := by
  refine ⟨by decide, by decide, by decide⟩

/-! ## C6: the variant-file resolution claim -/

theorem trOpenLoop_eq_findSome (directory : List String) (pre post : String) :
    ∀ opts : List String,
      trOpenLoop directory pre post opts =
        match opts.findSome? (fun v => getPathCaseInsensitive directory (pre ++ v ++ post)) with
        | some f => Except.ok f
        | none => Except.error ("File " ++ pre ++ post ++ " or its variants not found")
  | [] => rfl
  | v :: rest => by
    simp only [trOpenLoop, List.findSome?_cons]
    cases getPathCaseInsensitive directory (pre ++ v ++ post) with
    | none => exact trOpenLoop_eq_findSome directory pre post rest
    | some f => rfl

/-- Counterexample to claim C6: the claimed precedence list for a
night+weather request includes the weather-only suffix, but `try_options` in
the source builds `["NW", "N", ""]` — the weather-only variant is never
tried when night is set.  In a directory holding only the weather-only and
base files, a night+weather request returns the base file under the code,
while the claim's list would return the weather-only file. -/
theorem track_claim_C6_counterexample :
    tryOptions true true = ["NW", "N", ""]
    ∧ tryOptionsSpec true true = ["NW", "N", "W", ""]
    ∧ tryOptions true true ≠ tryOptionsSpec true true
    ∧ trOpen ["tr.frd", "trw.frd"] "TR" ".FRD" false true true = Except.ok "tr.frd"
    ∧ trOpenLoop ["tr.frd", "trw.frd"] "TR" ".FRD" (tryOptionsSpec true true)
        = Except.ok "trw.frd" := by
  refine ⟨rfl, rfl, by decide, rfl, rfl⟩

/-- Claim C6 (amended): variant resolution tries each suffix of the
precedence list actually built by `tr_open` — `["NW", "N", ""]` for
night+weather (the weather-only suffix is NOT tried when night is set),
`["N", ""]` for night-only, `["W", ""]` for weather-only, `[""]` for base —
returning the first file that exists and failing only after the whole list
is exhausted; requesting night+weather in a directory holding only the base
and night-only files still returns the night-only file, and when both the
night+weather and night-only files are absent the request falls straight
through to the base file even if a weather-only file exists. -/
theorem track_claim_C6_amended :
    (∀ (directory : List String) (pre post : String) (mirrored night weather : Bool),
      trOpen directory pre post mirrored night weather =
        match (tryOptions night weather).findSome?
            (fun v => getPathCaseInsensitive directory (pre ++ v ++ post)) with
        | some f => Except.ok f
        | none => Except.error ("File " ++ pre ++ post ++ " or its variants not found"))
    ∧ (∀ (directory : List String) (pre post : String) (mirrored : Bool) (f : String),
        getPathCaseInsensitive directory (pre ++ "NW" ++ post) = none →
        getPathCaseInsensitive directory (pre ++ "N" ++ post) = some f →
        trOpen directory pre post mirrored true true = Except.ok f)
    ∧ (∀ (directory : List String) (pre post : String) (mirrored : Bool) (f : String),
        getPathCaseInsensitive directory (pre ++ "NW" ++ post) = none →
        getPathCaseInsensitive directory (pre ++ "N" ++ post) = none →
        getPathCaseInsensitive directory (pre ++ post) = some f →
        trOpen directory pre post mirrored true true = Except.ok f)
    ∧ tryOptions true true = ["NW", "N", ""]
    ∧ tryOptions true false = ["N", ""]
    ∧ tryOptions false true = ["W", ""]
    ∧ tryOptions false false = [""] := by
  refine ⟨?_, ?_, ?_, rfl, rfl, rfl, rfl⟩
  · intro directory pre post mirrored night weather
    exact trOpenLoop_eq_findSome directory pre post (tryOptions night weather)
  · intro directory pre post mirrored f hnw hn
    show trOpenLoop directory pre post (tryOptions true true) = Except.ok f
    simp only [tryOptions, Bool.and_self, if_pos]
    simp only [trOpenLoop, hnw, hn]
  · intro directory pre post mirrored f hnw hn hb
    show trOpenLoop directory pre post (tryOptions true true) = Except.ok f
    simp only [tryOptions, Bool.and_self, if_pos]
    have hb' : getPathCaseInsensitive directory (pre ++ "" ++ post) = some f := by
      rw [String.append_empty]; exact hb
    simp only [trOpenLoop, hnw, hn, hb']

/-- Witness for the amended C6: a directory holding only the base and
night-only files (in lower case, exercising the case-insensitive match); the
night+weather request resolves to the night-only file. -/
theorem track_claim_C6_amended_witness :
    trOpen ["tr.frd", "trn.frd"] "TR" ".FRD" false true true = Except.ok "trn.frd" := by
  exact track_claim_C6_amended.2.1 ["tr.frd", "trn.frd"] "TR" ".FRD" false "trn.frd"
    (by decide) (by decide)

/-! ## C7: the wall-raising claim (corrected) -/

/-- Counterexample to claim C7: around `wallVertex` the fourth sample of
`wallHeights` is among the 3 planar-closest but not among the 3 closest by
the full 3-D distance the source actually uses, so the source raises the
vertex by 0 while the claim's planar-distance reading would raise it by
-100. -/
theorem track_claim_C7_counterexample :
    raiseVertex wallHeights wallVertex =
      some { location := { x := 0, z := 0, y := 0 } }
    ∧ raiseVertexPlanarSpec wallHeights wallVertex =
      some { location := { x := 0, z := 0, y := -100 } } := by
  constructor
  · norm_num [raiseVertex, minByHeight, List.insertionSort, List.orderedInsert, keyLE,
      raiseSortKey, Vector3d.subtract, Vector3d.magnitudeSq, wallHeights, wallVertex]
  · norm_num [raiseVertexPlanarSpec, minByHeight, List.insertionSort, List.orderedInsert,
      keyLE, Vector3d.subtract, Vector3d.horizontalPlaneSq, wallHeights, wallVertex]

/-! ## C9: the engine-audio merge claim (corrected) -/

/-- Counterexample to claim C9: a load-table entry whose patch number (1) has
no stream in the sample set makes `merge_tables` raise `KeyError` when
consumed (modelled as `none`), rather than silently dropping the entry and
returning an empty merge. -/
theorem viv_claim_C9_counterexample :
    mergeTables [] [(1, engineLoadTable)] [] = none := by decide

/-! ## C8: the resource name-deduplication claim -/

theorem nextRepeat_cons {β : Type} [DecidableEq β] (count : List (β × Int)) (k k' : β)
    (c : Int) :
    nextRepeat ((k, c) :: count) k' = if k' = k then c + 1 else nextRepeat count k' := by
  unfold nextRepeat
  by_cases h : k' = k
  · simp [List.lookup_cons, h]
  · have hb : (k' == k) = false := beq_eq_false_iff_ne.mpr h
    simp [List.lookup_cons, hb, h]

theorem countRepeatsAndMap_length {T Ty β : Type} [DecidableEq β] (f : T → Int → Ty)
    (key : T → β) : ∀ (l : List T) (count : List (β × Int)),
    (countRepeatsAndMap f key l count).length = l.length
  | [], _ => rfl
  | _ :: rest, count => by
    simp [countRepeatsAndMap, countRepeatsAndMap_length f key rest]

theorem countRepeatsAndMap_getD {T Ty β : Type} [DecidableEq β] (f : T → Int → Ty)
    (key : T → β) (dt : T) (dy : Ty) :
    ∀ (l : List T) (count : List (β × Int)) (i : Nat), i < l.length →
      (countRepeatsAndMap f key l count).getD i dy =
        f (l.getD i dt) (nextRepeat count (key (l.getD i dt)) +
          (((l.take i).countP (fun s => key s == key (l.getD i dt)) : Nat) : Int))
  | [], _, i, hi => by simp at hi
  | item :: rest, count, 0, _ => by
    simp [countRepeatsAndMap, nextRepeat]
  | item :: rest, count, i + 1, hi => by
    rw [List.length_cons] at hi
    have ih := countRepeatsAndMap_getD f key dt dy rest
      ((key item, nextRepeat count (key item)) :: count) i (by omega)
    simp only [countRepeatsAndMap, List.getD_cons_succ, List.take_succ_cons,
      List.countP_cons, List.getD_cons_succ]
    have harg : (match List.lookup (key item) count with
        | some c => c
        | none => -1) + 1 = nextRepeat count (key item) := by
      unfold nextRepeat
      rfl
    rw [harg, ih, nextRepeat_cons]
    by_cases hk : key (rest.getD i dt) = key item
    · have hb : (key item == key (rest.getD i dt)) = true := beq_iff_eq.mpr hk.symm
      rw [if_pos hk, hb, hk]
      simp only [eq_self_iff_true, if_true]
      push_cast
      ring_nf
    · have hb : (key item == key (rest.getD i dt)) = false :=
        beq_eq_false_iff_ne.mpr (fun hc => hk hc.symm)
      rw [if_neg hk, hb]
      simp only [Bool.false_eq_true, if_false]
      push_cast
      ring_nf

/-- Claim C8: name deduplication is by the name string in first-seen order:
the element at position `i` is renamed according to the number of earlier
same-named resources — unchanged when that number is 0, suffixed `-k` for the
k-th repetition — with every other field left untouched and the input order
preserved. -/
theorem utils_claim_C8 (l : List Resource) (dflt : Resource) (i : Nat) (h : i < l.length) :
    (uniqueNamedResources l).length = l.length
    ∧ (uniqueNamedResources l).getD i dflt =
        makeUniqueName (l.getD i dflt)
          (((l.take i).countP (fun s => s.name == (l.getD i dflt).name) : Nat) : Int)
    ∧ (∀ r : Resource, makeUniqueName r 0 = r)
    ∧ (∀ (r : Resource) (k : Int), k ≠ 0 →
        makeUniqueName r k =
          { name := r.name ++ "-" ++ toString k, image := r.image, mirrored := r.mirrored,
            nonmirrored := r.nonmirrored, blend_mode := r.blend_mode }) := by
  refine ⟨countRepeatsAndMap_length _ _ l [], ?_, fun r => by simp [makeUniqueName],
    fun r k hk => by simp [makeUniqueName, hk]⟩
  have := countRepeatsAndMap_getD makeUniqueName (fun x : Resource => x.name) dflt dflt
    l [] i h
  unfold uniqueNamedResources
  rw [this]
  have h0 : nextRepeat ([] : List (String × Int)) ((l.getD i dflt).name) = 0 := by
    unfold nextRepeat
    rfl
  rw [h0]
  norm_num

/-- Witness for C8: two resources named `x` come out as `x` and `x-1`, in
input order, with the second resource's other fields untouched. -/
theorem utils_claim_C8_witness :
    (uniqueNamedResources [resourceA, resourceB]).getD 0 resourceA = resourceA
    ∧ (uniqueNamedResources [resourceA, resourceB]).getD 1 resourceA =
        { name := "x-1", image := [1], mirrored := true } := by
  have h0 := (utils_claim_C8 [resourceA, resourceB] resourceA 0 (by decide)).2.1
  have h1 := (utils_claim_C8 [resourceA, resourceB] resourceA 1 (by decide)).2.1
  constructor
  · rw [h0]
    decide
  · rw [h1]
    decide

/-! ## C10: the unused-vertex removal claim -/

/-- Claim C10: for a mesh whose face indices are in bounds,
`remove_unused_vertices` keeps the number of polygons, rewrites each polygon
to the same polygon with only its face remapped (same arity), maps every face
index to a new index that addresses an equal vertex in the new vertex list,
and leaves no unreferenced vertex in the new vertex list. -/
theorem utils_claim_C10 {P : Type} (face : P → List Nat) (set_face : P → List Nat → P)
    (vertices : List Vertex) (polygons : List P)
    (hbound : ∀ p ∈ polygons, ∀ i ∈ face p, i < vertices.length) :
    ((removeUnusedVertices face set_face vertices polygons).2.length = polygons.length)
    ∧ ((removeUnusedVertices face set_face vertices polygons).2 =
        polygons.map (fun p => set_face p ((face p).map (fun i =>
          List.indexOf (vertices.getD i defaultVertex)
            (removeUnusedVertices face set_face vertices polygons).1))))
    ∧ (∀ p ∈ polygons, ∀ i ∈ face p,
        ((face p).map (fun i => List.indexOf (vertices.getD i defaultVertex)
            (removeUnusedVertices face set_face vertices polygons).1)).length
            = (face p).length
        ∧ List.indexOf (vertices.getD i defaultVertex)
            (removeUnusedVertices face set_face vertices polygons).1
            < (removeUnusedVertices face set_face vertices polygons).1.length
        ∧ (removeUnusedVertices face set_face vertices polygons).1.getD
            (List.indexOf (vertices.getD i defaultVertex)
              (removeUnusedVertices face set_face vertices polygons).1) defaultVertex
            = vertices.getD i defaultVertex)
    ∧ (∀ j, j < (removeUnusedVertices face set_face vertices polygons).1.length →
        ∃ p ∈ polygons, ∃ i ∈ face p,
          List.indexOf (vertices.getD i defaultVertex)
            (removeUnusedVertices face set_face vertices polygons).1 = j) := by
  have hfst : (removeUnusedVertices face set_face vertices polygons).1 =
      ((polygons.flatMap face).map (fun i => vertices.getD i defaultVertex)).dedup := rfl
  refine ⟨by simp [removeUnusedVertices], rfl, ?_, ?_⟩
  · intro p hp i hi
    have hv : vertices.getD i defaultVertex ∈
        (removeUnusedVertices face set_face vertices polygons).1 := by
      rw [hfst]
      exact List.mem_dedup.mpr
        (List.mem_map_of_mem _ (List.mem_flatMap.mpr ⟨p, hp, hi⟩))
    have hlt : List.indexOf (vertices.getD i defaultVertex)
        (removeUnusedVertices face set_face vertices polygons).1
        < (removeUnusedVertices face set_face vertices polygons).1.length :=
      List.indexOf_lt_length.mpr hv
    refine ⟨List.length_map _ _, hlt, ?_⟩
    rw [List.getD_eq_getElem _ _ hlt]
    exact List.getElem_indexOf hlt
  · intro j hj
    have hmem : (removeUnusedVertices face set_face vertices polygons).1[j] ∈
        ((polygons.flatMap face).map (fun i => vertices.getD i defaultVertex)).dedup := by
      rw [← hfst]
      exact List.getElem_mem hj
    obtain ⟨i0, hi0, heq⟩ := List.mem_map.mp (List.mem_dedup.mp hmem)
    obtain ⟨p, hp, hif⟩ := List.mem_flatMap.mp hi0
    refine ⟨p, hp, i0, hif, ?_⟩
    rw [heq]
    have hnd : (removeUnusedVertices face set_face vertices polygons).1.Nodup := by
      rw [hfst]
      exact List.nodup_dedup _
    have hlt2 : List.indexOf ((removeUnusedVertices face set_face vertices polygons).1[j])
        (removeUnusedVertices face set_face vertices polygons).1
        < (removeUnusedVertices face set_face vertices polygons).1.length :=
      List.indexOf_lt_length.mpr (List.getElem_mem hj)
    exact (List.Nodup.getElem_inj_iff hnd).mp (List.getElem_indexOf hlt2)

/-- Witness for C10: a concrete mesh with one quad referencing vertices 0 and
1 twice each and an unused third vertex; the in-bounds hypothesis is
discharged by computation, and the result keeps one polygon with its face
remapped into the two retained vertices. -/
theorem utils_claim_C10_witness :
    ((removeUnusedVertices cpFace cpSetFace sampleVertices samplePolygons).2.length
        = samplePolygons.length)
    ∧ (∀ j, j < (removeUnusedVertices cpFace cpSetFace sampleVertices samplePolygons).1.length →
        ∃ p ∈ samplePolygons, ∃ i ∈ cpFace p,
          List.indexOf (sampleVertices.getD i defaultVertex)
            (removeUnusedVertices cpFace cpSetFace sampleVertices samplePolygons).1 = j)
    ∧ (removeUnusedVertices cpFace cpSetFace sampleVertices samplePolygons).1.length = 2 := by
  have h := utils_claim_C10 cpFace cpSetFace sampleVertices samplePolygons (by decide)
  exact ⟨h.1, h.2.2.2, by decide⟩

/-! ## Helper lemmas: stable sorting and consecutive grouping -/

theorem sortByKey_perm {α β : Type} [LinearOrder β] (key : α → β) (l : List α) :
    (sortByKey key l).Perm l :=
  List.perm_insertionSort (keyLE key) l

theorem sortByKey_sorted {α β : Type} [LinearOrder β] (key : α → β) (l : List α) :
    List.Sorted (keyLE key) (sortByKey key l) :=
  List.sorted_insertionSort (keyLE key) l

theorem filter_orderedInsert_keyEq {α β : Type} [LinearOrder β] [DecidableEq β]
    (key : α → β) (k : β) (a : α) (l : List α) :
    (List.orderedInsert (keyLE key) a l).filter (fun x => decide (key x = k)) =
      if key a = k then a :: l.filter (fun x => decide (key x = k))
      else l.filter (fun x => decide (key x = k)) := by
  rw [List.orderedInsert_eq_take_drop, List.filter_append]
  by_cases hk : key a = k
  · have hnil : (l.takeWhile fun b => decide ¬keyLE key a b).filter
        (fun x => decide (key x = k)) = [] := by
      rw [List.filter_eq_nil_iff]
      intro b hb
      have hblt : ¬keyLE key a b := by
        have := List.mem_takeWhile_imp hb
        simpa using this
      simp only [decide_eq_true_eq]
      intro hbk
      exact hblt (le_of_eq (hk.trans hbk.symm))
    have hrest : l.filter (fun x => decide (key x = k)) =
        (l.dropWhile fun b => decide ¬keyLE key a b).filter (fun x => decide (key x = k)) := by
      conv_lhs => rw [← List.takeWhile_append_dropWhile
        (fun b => decide ¬keyLE key a b) l]
      rw [List.filter_append, hnil, List.nil_append]
    rw [hnil, List.nil_append, List.filter_cons,
      if_pos (show decide (key a = k) = true by simpa using hk), if_pos hk, hrest]
  · rw [if_neg hk]
    simp only [List.filter_cons]
    rw [if_neg (by simpa using hk)]
    conv_rhs => rw [← List.takeWhile_append_dropWhile (fun b => decide ¬keyLE key a b) l]
    rw [List.filter_append]

theorem sortByKey_filter_keyEq {α β : Type} [LinearOrder β] [DecidableEq β]
    (key : α → β) (k : β) :
    ∀ l : List α, (sortByKey key l).filter (fun x => decide (key x = k)) =
      l.filter (fun x => decide (key x = k))
  | [] => rfl
  | a :: l => by
    show (List.orderedInsert (keyLE key) a
        (List.insertionSort (keyLE key) l)).filter (fun x => decide (key x = k)) = _
    rw [filter_orderedInsert_keyEq]
    have ih := sortByKey_filter_keyEq key k l
    unfold sortByKey at ih
    rw [ih, List.filter_cons]
    by_cases h : key a = k
    · rw [if_pos h, if_pos (by simpa using h)]
    · rw [if_neg h, if_neg (by simpa using h)]

theorem groupRuns_cons_ne_nil {α β : Type} [DecidableEq β] (key : α → β) (a : α)
    (l : List α) : groupRuns key (a :: l) ≠ [] := by
  unfold groupRuns
  cases hgl : groupRuns key l with
  | nil => simp
  | cons q rest =>
    obtain ⟨k, g⟩ := q
    by_cases hk : key a = k <;> simp [hk]

theorem groupRuns_cons_head {α β : Type} [DecidableEq β] (key : α → β) (a : α)
    (l : List α) : ∃ g rest, groupRuns key (a :: l) = (key a, g) :: rest := by
  unfold groupRuns
  cases hgl : groupRuns key l with
  | nil => exact ⟨[a], [], rfl⟩
  | cons q rest =>
    obtain ⟨k, g⟩ := q
    by_cases hk : key a = k
    · exact ⟨a :: g, rest, by simp [hk]⟩
    · exact ⟨[a], (k, g) :: rest, by simp [hk]⟩

theorem groupRuns_mem_key {α β : Type} [DecidableEq β] (key : α → β) :
    ∀ (l : List α), ∀ p ∈ groupRuns key l, ∃ x ∈ l, key x = p.1 := by
  intro l
  induction l with
  | nil => simp [groupRuns]
  | cons a l ih =>
    intro p hp
    cases hgl : groupRuns key l with
    | nil =>
      simp only [groupRuns, hgl] at hp
      simp at hp
      exact ⟨a, by simp, by rw [hp]⟩
    | cons q rest =>
      obtain ⟨k, g⟩ := q
      simp only [groupRuns, hgl] at hp
      by_cases hk : key a = k
      · rw [if_pos hk] at hp
        rcases List.mem_cons.mp hp with rfl | hrest
        · exact ⟨a, by simp, hk⟩
        · obtain ⟨x, hx, hxk⟩ := ih p (by rw [hgl]; exact List.mem_cons_of_mem _ hrest)
          exact ⟨x, List.mem_cons_of_mem _ hx, hxk⟩
      · rw [if_neg hk] at hp
        rcases List.mem_cons.mp hp with rfl | hrest
        · exact ⟨a, by simp, rfl⟩
        · obtain ⟨x, hx, hxk⟩ := ih p (by rw [hgl]; exact hrest)
          exact ⟨x, List.mem_cons_of_mem _ hx, hxk⟩

theorem groupRuns_key_covers {α β : Type} [DecidableEq β] (key : α → β) :
    ∀ (l : List α), ∀ x ∈ l, ∃ p ∈ groupRuns key l, p.1 = key x := by
  intro l
  induction l with
  | nil => simp
  | cons a l ih =>
    intro x hx
    rcases List.mem_cons.mp hx with rfl | hx'
    · obtain ⟨g, rest, hgr⟩ := groupRuns_cons_head key x l
      exact ⟨(key x, g), by rw [hgr]; exact List.mem_cons_self _ _, rfl⟩
    · obtain ⟨p, hp, hkey⟩ := ih x hx'
      cases hgl : groupRuns key l with
      | nil => rw [hgl] at hp; simp at hp
      | cons q rest =>
        obtain ⟨k, g⟩ := q
        simp only [groupRuns, hgl]
        rw [hgl] at hp
        by_cases hk : key a = k
        · rw [if_pos hk]
          rcases List.mem_cons.mp hp with rfl | hrest
          · exact ⟨(k, a :: g), List.mem_cons_self _ _, hkey⟩
          · exact ⟨p, List.mem_cons_of_mem _ hrest, hkey⟩
        · rw [if_neg hk]
          exact ⟨p, List.mem_cons_of_mem _ hp, hkey⟩

theorem groupRuns_keys_sorted {α β : Type} [LinearOrder β] [DecidableEq β] (key : α → β) :
    ∀ (l : List α), List.Sorted (keyLE key) l →
      List.Sorted (· < ·) ((groupRuns key l).map Prod.fst) := by
  intro l
  induction l with
  | nil => simp [groupRuns]
  | cons a l ih =>
    intro hs
    obtain ⟨hhead, hsl⟩ := List.sorted_cons.mp hs
    cases hgl : groupRuns key l with
    | nil => simp [groupRuns, hgl]
    | cons q rest =>
      obtain ⟨k, g⟩ := q
      simp only [groupRuns, hgl]
      have hIH := ih hsl
      rw [hgl] at hIH
      by_cases hk : key a = k
      · rw [if_pos hk]
        simpa using hIH
      · rw [if_neg hk]
        have hak : key a < k := by
          obtain ⟨x, hx, hxk⟩ := groupRuns_mem_key key l (k, g)
            (by rw [hgl]; exact List.mem_cons_self _ _)
          exact lt_of_le_of_ne (le_trans (hhead x hx) (le_of_eq hxk)) hk
        simp only [List.map_cons] at hIH ⊢
        refine List.sorted_cons.mpr ⟨?_, hIH⟩
        intro b hb
        rcases List.mem_cons.mp hb with rfl | hb'
        · exact hak
        · have hkb : k < b := (List.sorted_cons.mp hIH).1 b hb'
          exact lt_trans hak hkb

theorem groupRuns_keys_nodup {α β : Type} [LinearOrder β] [DecidableEq β] (key : α → β)
    (l : List α) (hs : List.Sorted (keyLE key) l) :
    ((groupRuns key l).map Prod.fst).Nodup :=
  (groupRuns_keys_sorted key l hs).nodup

theorem groupRuns_filter {α β : Type} [LinearOrder β] [DecidableEq β] (key : α → β) :
    ∀ (l : List α), List.Sorted (keyLE key) l →
      ∀ p ∈ groupRuns key l, p.2 = l.filter (fun x => decide (key x = p.1)) ∧ p.2 ≠ [] := by
  intro l
  induction l with
  | nil => simp [groupRuns]
  | cons a l ih =>
    intro hs p hp
    obtain ⟨hhead, hsl⟩ := List.sorted_cons.mp hs
    cases hgl : groupRuns key l with
    | nil =>
      have hlnil : l = [] := by
        cases l with
        | nil => rfl
        | cons b l2 => exact absurd hgl (groupRuns_cons_ne_nil key b l2)
      simp only [groupRuns, hgl] at hp
      simp at hp
      subst hlnil
      rw [hp]
      simp
    | cons q rest =>
      obtain ⟨k, g⟩ := q
      simp only [groupRuns, hgl] at hp
      obtain ⟨b, l2, rfl⟩ : ∃ b l2, l = b :: l2 := by
        cases l with
        | nil => simp [groupRuns] at hgl
        | cons b l2 => exact ⟨b, l2, rfl⟩
      have hkb : k = key b := by
        obtain ⟨g2, rest2, hgr⟩ := groupRuns_cons_head key b l2
        rw [hgl] at hgr
        injection hgr with hpair hrest2
        exact congrArg Prod.fst hpair
      by_cases hk : key a = k
      · rw [if_pos hk] at hp
        rcases List.mem_cons.mp hp with rfl | hrest
        · obtain ⟨hg1, _⟩ := ih hsl (k, g) (by rw [hgl]; exact List.mem_cons_self _ _)
          have hg1' : g = (b :: l2).filter (fun x => decide (key x = k)) := hg1
          refine ⟨?_, by simp⟩
          show a :: g = (a :: b :: l2).filter (fun x => decide (key x = k))
          rw [List.filter_cons, if_pos (by simpa using hk), hg1']
        · obtain ⟨hg1, hg2⟩ := ih hsl p (by rw [hgl]; exact List.mem_cons_of_mem _ hrest)
          have hne : key a ≠ p.1 := by
            have hnd := groupRuns_keys_nodup key (b :: l2) hsl
            rw [hgl] at hnd
            simp only [List.map_cons, List.nodup_cons] at hnd
            intro hcontra
            have hmem : p.1 ∈ List.map Prod.fst rest := List.mem_map.mpr ⟨p, hrest, rfl⟩
            rw [← hcontra, hk] at hmem
            exact hnd.1 hmem
          refine ⟨?_, hg2⟩
          rw [List.filter_cons, if_neg (by simpa using hne), hg1]
      · rw [if_neg hk] at hp
        have hak : key a < k := by
          have := hhead b (List.mem_cons_self _ _)
          exact lt_of_le_of_ne (le_trans this (le_of_eq hkb.symm)) hk
        have hge : ∀ x ∈ b :: l2, k ≤ key x := by
          intro x hx
          rcases List.mem_cons.mp hx with rfl | hx'
          · exact le_of_eq hkb
          · exact le_trans (le_of_eq hkb) ((List.sorted_cons.mp hsl).1 x hx')
        rcases List.mem_cons.mp hp with rfl | hrest
        · refine ⟨?_, by simp⟩
          show [a] = (a :: b :: l2).filter (fun x => decide (key x = key a))
          have hnil2 : (b :: l2).filter (fun x => decide (key x = key a)) = [] := by
            rw [List.filter_eq_nil_iff]
            intro x hx
            simp only [decide_eq_true_eq]
            intro hxa
            exact absurd (hxa ▸ hge x hx) (not_le.mpr hak)
          rw [List.filter_cons, if_pos (by simp), hnil2]
        · obtain ⟨hg1, hg2⟩ := ih hsl p (by rw [hgl]; exact hrest)
          have hne : key a ≠ p.1 := by
            obtain ⟨x, hx, hxk⟩ := groupRuns_mem_key key (b :: l2) p (by rw [hgl]; exact hrest)
            intro hcontra
            have : k ≤ p.1 := le_trans (hge x hx) (le_of_eq hxk)
            rw [← hcontra] at this
            exact absurd this (not_le.mpr hak)
          refine ⟨?_, hg2⟩
          rw [List.filter_cons, if_neg (by simpa using hne), hg1]

theorem filter_fst_eq_singleton {α β : Type} [DecidableEq β] :
    ∀ (gs : List (β × List α)) (k : β), (gs.map Prod.fst).Nodup →
      ∀ p ∈ gs, p.1 = k → gs.filter (fun q => decide (q.1 = k)) = [p] := by
  intro gs
  induction gs with
  | nil => simp
  | cons q gs ih =>
    intro k hnd p hp hpk
    simp only [List.map_cons, List.nodup_cons] at hnd
    rcases List.mem_cons.mp hp with rfl | hrest
    · simp only [List.filter_cons]
      rw [if_pos (by simpa using hpk)]
      have : gs.filter (fun r => decide (r.1 = k)) = [] := by
        rw [List.filter_eq_nil_iff]
        intro r hr
        simp only [decide_eq_true_eq]
        intro hrk
        exact hnd.1 ((hpk.trans hrk.symm) ▸ List.mem_map.mpr ⟨r, hr, rfl⟩)
      rw [this]
    · have hqk : q.1 ≠ k := by
        intro hcontra
        exact hnd.1 ((hcontra.trans hpk.symm) ▸ List.mem_map.mpr ⟨p, hrest, rfl⟩)
      simp only [List.filter_cons]
      rw [if_neg (by simpa using hqk)]
      exact ih k hnd.2 p hrest hpk

theorem groupRuns_sorted_filter_eq {α β : Type} [LinearOrder β] [DecidableEq β]
    (key : α → β) (l : List α) (k : β) (hs : List.Sorted (keyLE key) l) :
    (l.filter (fun x => decide (key x = k)) = [] →
      (groupRuns key l).filter (fun p => decide (p.1 = k)) = [])
    ∧ (l.filter (fun x => decide (key x = k)) ≠ [] →
      (groupRuns key l).filter (fun p => decide (p.1 = k)) =
        [(k, l.filter (fun x => decide (key x = k)))]) := by
  constructor
  · intro hcond
    rw [List.filter_eq_nil_iff]
    intro p hp
    simp only [decide_eq_true_eq]
    intro hpk
    obtain ⟨x, hx, hxk⟩ := groupRuns_mem_key key l p hp
    have : x ∈ l.filter (fun x => decide (key x = k)) :=
      List.mem_filter.mpr ⟨hx, by simpa using hxk.trans hpk⟩
    rw [hcond] at this
    exact absurd this (List.not_mem_nil x)
  · intro hcond
    obtain ⟨x0, hx0m⟩ := List.exists_mem_of_ne_nil _ hcond
    have hx0 : x0 ∈ l := (List.mem_filter.mp hx0m).1
    have hx0k : key x0 = k := by
      have := (List.mem_filter.mp hx0m).2
      simpa using this
    obtain ⟨p, hp, hpk⟩ := groupRuns_key_covers key l x0 hx0
    have hpk2 : p.1 = k := hpk.trans hx0k
    have hfil := groupRuns_filter key l hs p hp
    have hsing := filter_fst_eq_singleton (groupRuns key l) k
      (groupRuns_keys_nodup key l hs) p hp hpk2
    rw [hsing]
    have : p = (k, l.filter (fun x => decide (key x = k))) := by
      obtain ⟨p1, p2⟩ := p
      simp only at hpk2 hfil
      rw [Prod.mk.injEq]
      exact ⟨hpk2, by rw [hfil.1, hpk2]⟩
    rw [this]

theorem minByHeight_spec :
    ∀ l : List (Vector3d × ℚ), l ≠ [] →
      ∃ m, minByHeight l = some m ∧ m ∈ l ∧ ∀ x ∈ l, m.2 ≤ x.2 := by
  intro l
  induction l with
  | nil => intro h; exact absurd rfl h
  | cons a l ih =>
    intro _
    cases l with
    | nil => exact ⟨a, by simp [minByHeight], by simp, by simp⟩
    | cons b l2 =>
      obtain ⟨m, hm, hmem, hmin⟩ := ih (by simp)
      unfold minByHeight
      simp only [hm]
      by_cases hc : a.2 ≤ m.2
      · rw [if_pos hc]
        refine ⟨a, rfl, by simp, ?_⟩
        intro x hx
        rcases List.mem_cons.mp hx with rfl | hx'
        · exact le_rfl
        · exact le_trans hc (hmin x hx')
      · rw [if_neg hc]
        refine ⟨m, rfl, List.mem_cons_of_mem _ hmem, ?_⟩
        intro x hx
        rcases List.mem_cons.mp hx with rfl | hx'
        · exact le_of_lt (not_le.mp hc)
        · exact hmin x hx'

theorem optionMap_eq_none_of_mem {α β : Type} (f : α → Option β) :
    ∀ (l : List α) (a : α), a ∈ l → f a = none → optionMap f l = none := by
  intro l
  induction l with
  | nil => simp
  | cons b l ih =>
    intro a ha hfa
    rcases List.mem_cons.mp ha with rfl | ha'
    · simp [optionMap, hfa]
    · unfold optionMap
      cases hfb : f b with
      | none => rfl
      | some v => rw [ih a ha' hfa]

theorem optionMap_isSome {α β : Type} (f : α → Option β) :
    ∀ (l : List α), (∀ a ∈ l, (f a).isSome) →
      ∃ r, optionMap f l = some r ∧ List.Forall₂ (fun a b => f a = some b) l r := by
  intro l
  induction l with
  | nil => exact fun _ => ⟨[], rfl, List.Forall₂.nil⟩
  | cons a l ih =>
    intro h
    obtain ⟨b, hb⟩ := Option.isSome_iff_exists.mp (h a (List.mem_cons_self _ _))
    obtain ⟨r, hr, hfa⟩ := ih (fun x hx => h x (List.mem_cons_of_mem _ hx))
    refine ⟨b :: r, ?_, List.Forall₂.cons hb hfa⟩
    unfold optionMap
    rw [hb, hr]

theorem forall₂_exists_left {α β : Type} {R : α → β → Prop} :
    ∀ {l : List α} {r : List β}, List.Forall₂ R l r → ∀ b ∈ r, ∃ a ∈ l, R a b := by
  intro l r h
  induction h with
  | nil => simp
  | cons hab htail ih =>
    intro b hb
    rcases List.mem_cons.mp hb with rfl | hb'
    · exact ⟨_, List.mem_cons_self _ _, hab⟩
    · obtain ⟨a, ha, har⟩ := ih b hb'
      exact ⟨a, List.mem_cons_of_mem _ ha, har⟩

theorem forall₂_exists_right {α β : Type} {R : α → β → Prop} :
    ∀ {l : List α} {r : List β}, List.Forall₂ R l r → ∀ a ∈ l, ∃ b ∈ r, R a b := by
  intro l r h
  induction h with
  | nil => simp
  | cons hab htail ih =>
    intro a ha
    rcases List.mem_cons.mp ha with rfl | ha'
    · exact ⟨_, List.mem_cons_self _ _, hab⟩
    · obtain ⟨b, hb, har⟩ := ih a ha'
      exact ⟨b, List.mem_cons_of_mem _ hb, har⟩

theorem forall₂_map_eq {α β γ : Type} {R : α → β → Prop} (g1 : α → γ) (g2 : β → γ) :
    ∀ {l : List α} {r : List β}, List.Forall₂ R l r →
      (∀ a b, R a b → g2 b = g1 a) → r.map g2 = l.map g1 := by
  intro l r h hg
  induction h with
  | nil => rfl
  | cons hab htail ih =>
    simp only [List.map_cons]
    rw [hg _ _ hab, ih]

/-! ## C5 (amended), C7 (amended) and C9 (amended) -/

/-- Claim C5 (amended): for every FRD segment, the driveable polygons are
stably sorted by road-effect value and grouped into one collision mesh per
distinct road effect; the mesh for effect `k` exists iff some driveable
polygon has that effect and is built from exactly the driveable polygons
with effect `k`, in their original order — contiguity of polygon indices
plays no role. -/
theorem frd_claim_C5_amended (segment : SegmentData) (k : Nat) :
    (makeCollisionMeshes segment).filter (fun m => decide (m.collision_effect = k)) =
      (if segment.driveable_polygons.filter (fun d => decide (d.road_effect = k)) = []
       then []
       else [makeCollisionMesh segment k
         (segment.driveable_polygons.filter (fun d => decide (d.road_effect = k)))]) := by
  simp only [makeCollisionMeshes]
  rw [List.filter_map]
  have hpf : ((fun m : CollisionMesh => decide (m.collision_effect = k)) ∘
      (fun g : Nat × List DriveablePolygon => makeCollisionMesh segment g.1 g.2)) =
      (fun g : Nat × List DriveablePolygon => decide (g.1 = k)) := by
    funext g
    simp [makeCollisionMesh]
  rw [hpf]
  have hsorted := sortByKey_sorted (fun d : DriveablePolygon => d.road_effect)
    segment.driveable_polygons
  have hfe := groupRuns_sorted_filter_eq (fun d : DriveablePolygon => d.road_effect)
    (sortByKey (fun d : DriveablePolygon => d.road_effect) segment.driveable_polygons)
    k hsorted
  have hsf := sortByKey_filter_keyEq (fun d : DriveablePolygon => d.road_effect) k
    segment.driveable_polygons
  by_cases hc : segment.driveable_polygons.filter (fun d => decide (d.road_effect = k)) = []
  · rw [if_pos hc, hfe.1 (by rw [hsf]; exact hc)]
    simp
  · rw [if_neg hc, hfe.2 (by rw [hsf]; exact hc)]
    simp only [List.map_cons, List.map_nil]
    rw [hsf]

/-- Claim C7 (amended): with at least three height samples, `_raise_vertex`
sorts the samples by the FULL 3-D distance to the vertex (not the planar
distance), takes the three closest — every remaining sample is at least as
far as each of them — and raises the vertex's `y` by the minimum height among
those three (not the nearest sample's height). -/
theorem track_claim_C7_amended (heights : List (Vector3d × ℚ)) (vertex : Vertex)
    (h3 : 3 ≤ heights.length) :
    ∃ three rest,
      List.insertionSort (keyLE (raiseSortKey vertex)) heights = three ++ rest
      ∧ three.length = 3
      ∧ (three ++ rest).Perm heights
      ∧ (∀ a ∈ three, ∀ b ∈ rest, raiseSortKey vertex a ≤ raiseSortKey vertex b)
      ∧ ∃ m ∈ three, (∀ a ∈ three, m.2 ≤ a.2)
          ∧ raiseVertex heights vertex = some { vertex with location :=
              { vertex.location with y := vertex.location.y + m.2 } } := by
  have hlen : (List.insertionSort (keyLE (raiseSortKey vertex)) heights).length =
      heights.length := (List.perm_insertionSort _ _).length_eq
  refine ⟨(List.insertionSort (keyLE (raiseSortKey vertex)) heights).take 3,
    (List.insertionSort (keyLE (raiseSortKey vertex)) heights).drop 3,
    (List.take_append_drop 3 _).symm, ?_, ?_, ?_, ?_⟩
  · rw [List.length_take, hlen]
    exact inf_eq_left.mpr h3
  · rw [List.take_append_drop]
    exact List.perm_insertionSort _ heights
  · have hsort : List.Sorted (keyLE (raiseSortKey vertex))
        (List.insertionSort (keyLE (raiseSortKey vertex)) heights) :=
      List.sorted_insertionSort _ _
    rw [← List.take_append_drop 3
      (List.insertionSort (keyLE (raiseSortKey vertex)) heights)] at hsort
    exact (List.pairwise_append.mp hsort).2.2
  · have htne : (List.insertionSort (keyLE (raiseSortKey vertex)) heights).take 3 ≠ [] := by
      intro hcontra
      have hcl := congrArg List.length hcontra
      rw [List.length_take, hlen, List.length_nil] at hcl
      omega
    obtain ⟨m, hm, hmem, hmin⟩ := minByHeight_spec _ htne
    refine ⟨m, hmem, hmin, ?_⟩
    simp only [raiseVertex, hm]

/-- Witness for the amended C7 on the concrete configuration `wallHeights`
around `wallVertex` (four samples, so the length hypothesis holds). -/
theorem track_claim_C7_amended_witness :
    ∃ three rest,
      List.insertionSort (keyLE (raiseSortKey wallVertex)) wallHeights = three ++ rest
      ∧ three.length = 3
      ∧ (three ++ rest).Perm wallHeights
      ∧ (∀ a ∈ three, ∀ b ∈ rest, raiseSortKey wallVertex a ≤ raiseSortKey wallVertex b)
      ∧ ∃ m ∈ three, (∀ a ∈ three, m.2 ≤ a.2)
          ∧ raiseVertex wallHeights wallVertex = some { wallVertex with location :=
              { wallVertex.location with y := wallVertex.location.y + m.2 } } :=
  track_claim_C7_amended wallHeights wallVertex (by decide)

theorem mkEngineSound_eq_some (samples : List (Nat × List AudioStream)) (patch : Nat)
    (tables : List SoundTable) (e : EngineAudio) :
    mkEngineSound samples patch tables = some e ↔
      ∃ strs, samples.lookup patch = some strs ∧
        e = { streams := strs, tables := tables, is_rear := decide (patch > 0x40),
              patchnum := patch } := by
  unfold mkEngineSound
  cases h : samples.lookup patch with
  | none => simp
  | some strs =>
    simp only [Option.some_inj]
    constructor
    · intro he
      exact ⟨strs, rfl, he.symm⟩
    · rintro ⟨strs2, hs2, he⟩
      rw [he, hs2]

/-- Claim C9 (amended): merging the load and coast tables against the decoded
streams groups all table entries by patch number (one `EngineAudio` per
distinct patch number, pairing the patch's streams with exactly the table
entries sharing that patch number, load entries before coast entries);
streams whose patch number appears in neither table are dropped; but a table
entry whose patch number has NO stream raises a KeyError when the result is
consumed (modelled as `none`) instead of being silently dropped. -/
theorem viv_claim_C9_amended (samples : List (Nat × List AudioStream))
    (load coast : List (Nat × SoundTable)) :
    ((∃ pt ∈ load ++ coast, samples.lookup pt.1 = none) →
      mergeTables samples load coast = none)
    ∧ ((∀ pt ∈ load ++ coast, (samples.lookup pt.1).isSome) →
      ∃ out, mergeTables samples load coast = some out
        ∧ (∀ e ∈ out, samples.lookup e.patchnum = some e.streams
            ∧ e.tables = ((load ++ coast).filter
                (fun pt => decide (pt.1 = e.patchnum))).map (fun pt => pt.2)
            ∧ e.is_rear = decide (e.patchnum > 0x40))
        ∧ (∀ p : Nat, (∃ t, (p, t) ∈ load ++ coast) ↔ ∃ e ∈ out, e.patchnum = p)
        ∧ (out.map (fun e => e.patchnum)).Nodup) := by
  have hsorted := sortByKey_sorted (fun x : Nat × SoundTable => x.1) (load ++ coast)
  have hperm := sortByKey_perm (fun x : Nat × SoundTable => x.1) (load ++ coast)
  constructor
  · rintro ⟨pt, hpt, hnone⟩
    have hpts : pt ∈ sortByKey (fun x : Nat × SoundTable => x.1) (load ++ coast) :=
      hperm.mem_iff.mpr hpt
    obtain ⟨g, hg, hgk⟩ := groupRuns_key_covers (fun x : Nat × SoundTable => x.1) _ pt hpts
    simp only [mergeTables]
    apply optionMap_eq_none_of_mem _ _ g hg
    unfold mkEngineSound
    rw [hgk, hnone]
  · intro hall
    have hsome : ∀ g ∈ groupRuns (fun x : Nat × SoundTable => x.1)
        (sortByKey (fun x : Nat × SoundTable => x.1) (load ++ coast)),
        ((fun g : Nat × List (Nat × SoundTable) =>
          mkEngineSound samples g.1 (g.2.map (fun x => x.2))) g).isSome := by
      intro g hg
      obtain ⟨x, hx, hxk⟩ := groupRuns_mem_key (fun x : Nat × SoundTable => x.1) _ g hg
      have hxm : x ∈ load ++ coast := hperm.mem_iff.mp hx
      have := hall x hxm
      simp only [mkEngineSound]
      rw [← hxk]
      cases h : samples.lookup x.1 with
      | none => rw [h] at this; simp at this
      | some strs => simp
    obtain ⟨out, hout, hfa⟩ := optionMap_isSome _ _ hsome
    refine ⟨out, by simp only [mergeTables]; exact hout, ?_, ?_, ?_⟩
    · intro e he
      obtain ⟨g, hg, hge⟩ := forall₂_exists_left hfa e he
      obtain ⟨strs, hlk, hee⟩ := (mkEngineSound_eq_some _ _ _ _).mp hge
      have hfil := groupRuns_filter (fun x : Nat × SoundTable => x.1) _ hsorted g hg
      have hsf := sortByKey_filter_keyEq (fun x : Nat × SoundTable => x.1) g.1 (load ++ coast)
      subst hee
      refine ⟨by rw [hlk], ?_, rfl⟩
      simp only
      rw [hfil.1, hsf]
    · intro p
      constructor
      · rintro ⟨t, hpt⟩
        have hpts : (p, t) ∈ sortByKey (fun x : Nat × SoundTable => x.1) (load ++ coast) :=
          hperm.mem_iff.mpr hpt
        obtain ⟨g, hg, hgk⟩ :=
          groupRuns_key_covers (fun x : Nat × SoundTable => x.1) _ (p, t) hpts
        obtain ⟨e, he, hge⟩ := forall₂_exists_right hfa g hg
        obtain ⟨strs, _, hee⟩ := (mkEngineSound_eq_some _ _ _ _).mp hge
        exact ⟨e, he, by rw [hee]; exact hgk⟩
      · rintro ⟨e, he, hep⟩
        obtain ⟨g, hg, hge⟩ := forall₂_exists_left hfa e he
        obtain ⟨strs, _, hee⟩ := (mkEngineSound_eq_some _ _ _ _).mp hge
        obtain ⟨x, hx, hxk⟩ := groupRuns_mem_key (fun x : Nat × SoundTable => x.1) _ g hg
        have hxm : x ∈ load ++ coast := hperm.mem_iff.mp hx
        refine ⟨x.2, ?_⟩
        have hx1 : x.1 = p := by
          rw [hxk, ← hep, hee]
        rw [← hx1]
        exact hxm
    · have hmap : out.map (fun e => e.patchnum) =
          (groupRuns (fun x : Nat × SoundTable => x.1)
            (sortByKey (fun x : Nat × SoundTable => x.1) (load ++ coast))).map Prod.fst := by
        apply forall₂_map_eq
        · exact hfa
        · intro g e hge
          obtain ⟨strs, _, hee⟩ := (mkEngineSound_eq_some _ _ _ _).mp hge
          rw [hee]
      rw [hmap]
      exact groupRuns_keys_nodup _ _ hsorted

/-- Witness for the amended C9: one stream with patch 1 and one load and one
coast entry with patch 1; the merge succeeds and pairs the stream with both
table entries. -/
theorem viv_claim_C9_amended_witness :
    ∃ out, mergeTables [(1, [engineStream])] [(1, engineLoadTable)] [(1, engineCoastTable)]
        = some out
      ∧ (∀ e ∈ out, ([(1, [engineStream])] : List (Nat × List AudioStream)).lookup e.patchnum
            = some e.streams
          ∧ e.tables = ((([(1, engineLoadTable)] ++ [(1, engineCoastTable)]
                : List (Nat × SoundTable))).filter
              (fun pt => decide (pt.1 = e.patchnum))).map (fun pt => pt.2)
          ∧ e.is_rear = decide (e.patchnum > 0x40))
      ∧ (∀ p : Nat, (∃ t, (p, t) ∈ [(1, engineLoadTable)] ++ [(1, engineCoastTable)])
          ↔ ∃ e ∈ out, e.patchnum = p)
      ∧ (out.map (fun e => e.patchnum)).Nodup :=
  (viv_claim_C9_amended [(1, [engineStream])] [(1, engineLoadTable)]
    [(1, engineCoastTable)]).2 (by decide)

end Speedtools
